import Mathlib

/-!
# SimpleCheckers

A shallow embedding of `SimplerCheckers/SimpleCheckers.cpp` (classes `Piece` and `Board`,
the helper `CheckInput` and the body of the do-while loop of `main`), followed by theorems
about it.

Conventions of the embedding

* `pair<int,int>` is `Int × Int`, `first` is the row and `second` the column.
* The 64 `Piece` objects are allocated once by the constructor and never freed, so a
  non-null `Piece*` is identified with the index of the cell it points to (`Cell`), and
  `nullptr` is `none`.
* Indexing `board[r][c]` with an index outside `0..7`, and dereferencing `nullptr`, have no
  defined result in the source: the embedding returns `none` there.
-/

namespace SimpleCheckers

/-- A coordinate pair as the source passes it around (`pair<int,int>`). -/
abbrev Coord := Int × Int

/-- The index of one of the 64 allocated pieces `board[i][j]`; also the value of a non-null
`Piece*`. -/
abbrev Cell := Fin 8 × Fin 8

/-- Class `Piece`: `owner`, `position`, and the cached pointers `left` and `right`. -/
structure Piece where
  owner : Int
  position : Coord
  left : Option Cell
  right : Option Cell
deriving DecidableEq, Repr

/-- Class `Board`: the grid `board[8][8]` and the vector `computerPieces`.  The private
fields `player1` and `player2` are never read or written and are left out. -/
structure Board where
  cells : Cell → Piece
  computerPieces : List Cell

/-- The coordinates of a cell index, as integers. -/
def Cell.coord (c : Cell) : Coord := ((c.1.val : Int), (c.2.val : Int))

/-- Array indexing `board[c.first][c.second]`: defined only for indices in `0..7`. -/
def toCell (c : Coord) : Option Cell :=
  if h : (0 ≤ c.1 ∧ c.1 < 8) ∧ (0 ≤ c.2 ∧ c.2 < 8) then
    some (⟨c.1.toNat, by omega⟩, ⟨c.2.toNat, by omega⟩)
  else none

/-- Method `Board::CheckBounds`. -/
def CheckBounds (piece : Coord) : Bool :=
  if piece.1 < 0 ∨ piece.1 > 7 then false
  else if piece.2 < 0 ∨ piece.2 > 7 then false
  else true

namespace Board

/-- Reads `p->GetOwner()`. -/
def owner (b : Board) (p : Cell) : Int := (b.cells p).owner

/-- Performs `p->SetOwner(v)`. -/
def setOwner (b : Board) (p : Cell) (v : Int) : Board :=
  { b with cells := Function.update b.cells p { b.cells p with owner := v } }

/-- Performs `p->left = q`. -/
def setLeft (b : Board) (p : Cell) (q : Option Cell) : Board :=
  { b with cells := Function.update b.cells p { b.cells p with left := q } }

/-- Performs `p->right = q`. -/
def setRight (b : Board) (p : Cell) (q : Option Cell) : Board :=
  { b with cells := Function.update b.cells p { b.cells p with right := q } }

/-- The first loop nest of the constructor: `board[i][j] = new Piece(0, i, j)`. -/
def blank : Board :=
  { cells := fun c => { owner := 0, position := c.coord, left := none, right := none },
    computerPieces := [] }

/-- The column loop `for (j = start; j < 8; j += 2)`, as the list of the values `j` takes.
The first argument bounds the number of iterations. -/
def colLoop : Nat → Nat → List (Fin 8)
  | 0, _ => []
  | fuel + 1, j => if h : j < 8 then ⟨j, h⟩ :: colLoop fuel (j + 2) else []

/-- Body of the player-2 placement loop for the cell `board[i][j]`. -/
def placeTwo (b : Board) (i j : Fin 8) : Board :=
  let r : Int := (i.val : Int)
  let c : Int := (j.val : Int)
  let b1 := b.setOwner (i, j) 1
  let b2 := if CheckBounds (r + 1, c - 1) then b1.setLeft (i, j) (toCell (r + 1, c - 1)) else b1
  let b3 := if CheckBounds (r + 1, c + 1) then b2.setRight (i, j) (toCell (r + 1, c + 1)) else b2
  { b3 with computerPieces := b3.computerPieces ++ [(i, j)] }

/-- Body of the player-1 placement loop for the cell `board[i][j]`. -/
def placeOne (b : Board) (i j : Fin 8) : Board :=
  let r : Int := (i.val : Int)
  let c : Int := (j.val : Int)
  let b1 := b.setOwner (i, j) (-1)
  let b2 := if CheckBounds (r - 1, c - 1) then b1.setLeft (i, j) (toCell (r - 1, c - 1)) else b1
  if CheckBounds (r - 1, c + 1) then b2.setRight (i, j) (toCell (r - 1, c + 1)) else b2

/-- One row of a placement loop: the inner `for` over the columns `(i + 1) % 2, +2, ...`. -/
def placeRow (body : Board → Fin 8 → Fin 8 → Board) (b : Board) (i : Fin 8) : Board :=
  (colLoop 8 ((i.val + 1) % 2)).foldl (fun acc j => body acc i j) b

/-- The constructor `Board::Board()`: blank grid, player 2 on rows 0..2, player 1 on rows
5..7, and the final statement `board[4][3]->SetOwner(1)`. -/
def construct : Board :=
  let b1 := ([0, 1, 2] : List (Fin 8)).foldl (placeRow placeTwo) blank
  let b2 := ([5, 6, 7] : List (Fin 8)).foldl (placeRow placeOne) b1
  b2.setOwner (4, 3) 1

/-- Method `Board::GetPiece`: the pointer stored at the coordinates, or `nullptr`. -/
def GetPiece (_b : Board) (coordinates : Coord) : Option Cell :=
  if CheckBounds coordinates then toCell coordinates else none

/-- Method `Board::isValid`.  The result is `none` when `GetPiece(move)` is `nullptr`, which
the source dereferences. -/
def isValid (b : Board) (move : Coord) (owner : Int) (direction : String) : Option Bool :=
  match b.GetPiece move with
  | none => none
  | some newPosition =>
    if b.owner newPosition = owner then some false
    else if b.owner newPosition = 0 then some true
    else if direction = "left" then
      match b.GetPiece (move.1 + owner, move.2 - 1) with
      | some jump => if b.owner jump = 0 then some true else some false
      | none => some false
    else
      match b.GetPiece (move.1 + owner, move.2 + 1) with
      | some jump => if b.owner jump = 0 then some true else some false
      | none => some false

/-- The statements `p->SetOwner(0); p->left = nullptr; p->right = nullptr;`. -/
def vacate (b : Board) (p : Cell) : Board :=
  ((b.setOwner p 0).setLeft p none).setRight p none

/-- Method `Board::MovePiece`.  Returns the new board and the returned pointer `result`;
`none` when one of the unguarded accesses `board[..][..]` is outside the grid or when `p3`
is still `nullptr` at `p3->SetOwner`. -/
def MovePiece (b : Board) (previous next : Coord) (direction : String) :
    Option (Board × Cell) :=
  match toCell previous, toCell next with
  | some p1, some p2 =>
    if b.owner p1 = b.owner p2 * -1 then
      let p3 : Option Cell :=
        if direction = "left" then toCell (next.1 + b.owner p1, next.2 - 1)
        else if direction = "right" then toCell (next.1 + b.owner p1, next.2 + 1)
        else none
      match p3 with
      | none => none
      | some p3 =>
        let b1 := b.setOwner p3 (b.owner p1)
        let b2 :=
          if CheckBounds (next.1 + 2 * b1.owner p1, next.2 - 2) then
            b1.setLeft p3 (toCell (next.1 + 2 * b1.owner p1, next.2 - 2))
          else b1
        let b3 :=
          if CheckBounds (next.1 + 2 * b2.owner p1, next.2 + 2) then
            b2.setRight p3 (toCell (next.1 + 2 * b2.owner p1, next.2 + 2))
          else b2
        some ((b3.vacate p2).vacate p1, p3)
    else
      let b1 := b.setOwner p2 (b.owner p1)
      let b2 :=
        if CheckBounds (next.1 + b1.owner p1, next.2 - 1) then
          b1.setLeft p2 (toCell (next.1 + b1.owner p1, next.2 - 1))
        else b1
      let b3 :=
        if CheckBounds (next.1 + b2.owner p1, next.2 + 1) then
          b2.setRight p2 (toCell (next.1 + b2.owner p1, next.2 + 1))
        else b2
      some (b3.vacate p1, p2)
  | _, _ => none

/-- The landing cell `p3` that the jump branch of `MovePiece` computes from `p1`, `next`
and `direction` (`none` for an index outside the grid or a null `p3`). -/
def landing (b : Board) (p1 : Cell) (nxt : Coord) (direction : String) : Option Cell :=
  if direction = "left" then toCell (nxt.1 + b.owner p1, nxt.2 - 1)
  else if direction = "right" then toCell (nxt.1 + b.owner p1, nxt.2 + 1)
  else none

/-- Method `Board::CheckOwner` (its console output left out). -/
def CheckOwner (b : Board) (piece : Coord) (owner : Int) : Bool :=
  if ¬ CheckBounds piece = true then false
  else
    match toCell piece with
    | some p => if b.owner p = owner then true else false
    | none => false

end Board

/-- The helper `CheckInput`: the first two characters of the input, read as digits, each
reduced by one and swapped.  `input[k]` past the end of a `std::string` is the character
`0`. -/
def CheckInput (input : String) : Coord :=
  let x : Char := input.data.getD 0 (Char.ofNat 0)
  let y : Char := input.data.getD 1 (Char.ofNat 0)
  let a : Int := (x.toNat : Int) - 48
  let b : Int := (y.toNat : Int) - 48
  (b - 1, a - 1)

/-- A record of one executed call `MovePiece(previous, next, direction)` together with the
pointer it returned. -/
structure Move where
  previous : Coord
  next : Coord
  direction : String
  result : Cell
deriving DecidableEq, Repr

namespace Board

/-- All 64 cell indices, row by row. -/
def allCells : List Cell :=
  (List.finRange 8).flatMap fun i => (List.finRange 8).map fun j => (i, j)

/-- Number of cells whose owner is `p`. -/
def countOwner (b : Board) (p : Int) : Nat := allCells.countP fun c => decide (b.owner c = p)

/-- Number of occupied cells (owner different from 0). -/
def countOccupied (b : Board) : Nat := allCells.countP fun c => decide (b.owner c ≠ 0)

/-- The test "this owner value marks an occupied cell". -/
def isOccupied (v : Int) : Bool := decide (v ≠ 0)

/-- The test "this owner value is the player `p`". -/
def isOwner (p : Int) (v : Int) : Bool := decide (v = p)

/-- Number of cells whose owner satisfies `P`, for an owner map given as a function. -/
def countIf (P : Int → Bool) (f : Cell → Int) : Nat := allCells.countP fun c => P (f c)

/-- The coordinates of the landing cell beyond `move`, as `isValid` passes them to
`GetPiece`: one row further in the direction `owner`, one column to the left for "left" and
one to the right otherwise. -/
def landingCoord (move : Coord) (owner : Int) (direction : String) : Coord :=
  if direction = "left" then (move.1 + owner, move.2 - 1) else (move.1 + owner, move.2 + 1)

/-- The target coordinates `main` computes for a piece of owner `p` standing on `src`: the
next row in the direction `p`, one column to the left for "left" and one to the right
otherwise. -/
def forwardTarget (src : Coord) (p : Int) (direction : String) : Coord :=
  (src.1 + p, if direction = "left" then src.2 - 1 else src.2 + 1)

/-- The owner read through `GetPiece(c)->GetOwner()`; `none` when `GetPiece` is `nullptr`. -/
def ownerAt (b : Board) (c : Coord) : Option Int := (b.GetPiece c).map b.owner

/-- Every owner field holds one of the three values the source uses: 0 for an empty cell,
-1 for player 1 and 1 for player 2. -/
def ownersValid (b : Board) : Prop := ∀ c : Cell, b.owner c = 0 ∨ b.owner c = -1 ∨ b.owner c = 1

instance (b : Board) : Decidable b.ownersValid := by
  unfold ownersValid
  infer_instance

/-- Every piece knows its own place: the `position` set by the constructor is the index of
the cell. -/
def positionsValid (b : Board) : Prop := ∀ c : Cell, (b.cells c).position = c.coord

instance (b : Board) : Decidable b.positionsValid := by
  unfold positionsValid
  infer_instance

/-- A guarded validity test of `main`: `ptr != nullptr && isValid(target, owner, direction)`,
with the short circuit of `&&`. -/
def guarded (b : Board) (ptr : Option Cell) (target : Coord) (owner : Int)
    (direction : String) : Option Bool :=
  match ptr with
  | none => some false
  | some _ => b.isValid target owner direction

/-- The computer's `for (int i = size - 1; i > 0; --i)` loop of `main`, entered with the
loop variable equal to the first argument.  `selected` is the piece the player has just
moved, which the source consults for the right-hand guard.  Returns the board and the
executed moves. -/
def computerLoop (b : Board) (selected : Cell) : Nat → Option (Board × List Move)
  | 0 => some (b, [])
  | i + 1 =>
    match b.computerPieces.get? (i + 1) with
    | none => none
    | some comp =>
      let position := (b.cells comp).position
      if b.owner comp ≠ 1 then computerLoop b selected i
      else
        match b.guarded (b.cells comp).left (position.1 + 1, position.2 - 1)
            (b.owner comp) "left",
          b.guarded (b.cells selected).right (position.1 + 1, position.2 + 1)
            (b.owner comp) "right" with
        | some m0, some _m1 =>
          if m0 = true then
            match b.MovePiece position (position.1 + 1, position.2 - 1) "left" with
            | none => none
            | some (b1, result) =>
              let mv : Move :=
                { previous := position, next := (position.1 + 1, position.2 - 1),
                  direction := "left", result := result }
              some ({ b1 with computerPieces := b1.computerPieces.set (i + 1) result }, [mv])
          else computerLoop b selected i
        | _, _ => none

/-- The computer's turn: the loop started at `computerPieces.size() - 1`. -/
def computerTurn (b : Board) (selected : Cell) : Option (Board × List Move) :=
  b.computerLoop selected (b.computerPieces.length - 1)

/-- The character `tolower(direction[0])` that `main` compares with "l", "r" and "b". -/
def directionKey (direction : String) : Char :=
  (direction.data.getD 0 (Char.ofNat 0)).toLower

/-- The player's part of one iteration of the do-while loop of `main`, after
`CheckOwner(PieceLocation, -1)` has succeeded: the two guarded tests and the move.  The
result is `none` on an undefined access, `some none` when the iteration ends with
`continue` (no move), and otherwise the board, the selected piece and the executed move. -/
def playerMove (b : Board) (PieceLocation : Coord) (direction : String) :
    Option (Option (Board × Cell × Move)) :=
  match b.GetPiece PieceLocation with
  | none => none
  | some selected =>
    let targetL : Coord := (PieceLocation.1 - 1, PieceLocation.2 - 1)
    let targetR : Coord := (PieceLocation.1 - 1, PieceLocation.2 + 1)
    match b.guarded (b.cells selected).left targetL (b.owner selected) "left",
      b.guarded (b.cells selected).right targetR (b.owner selected) "right" with
    | some m0, some m1 =>
      if directionKey direction = 'l' ∧ m0 = true then
        match b.MovePiece PieceLocation targetL "left" with
        | none => none
        | some (b1, result) =>
          let mv : Move :=
            { previous := PieceLocation, next := targetL, direction := "left", result := result }
          some (some (b1, selected, mv))
      else if directionKey direction = 'r' ∧ m1 = true then
        match b.MovePiece PieceLocation targetR "right" with
        | none => none
        | some (b1, result) =>
          let mv : Move :=
            { previous := PieceLocation, next := targetR, direction := "right", result := result }
          some (some (b1, selected, mv))
      else some none
    | _, _ => none

/-- One iteration of the body of the do-while loop of `main` on the typed `input` and, when
it is asked for, the typed `direction`.  Returns the board at the end of the iteration and
the moves executed, the player's first. -/
def loopBody (b : Board) (input direction : String) : Option (Board × List Move) :=
  let PieceLocation := CheckInput input
  if b.CheckOwner PieceLocation (-1) = true then
    match b.playerMove PieceLocation direction with
    | none => none
    | some none => some (b, [])
    | some (some (b1, selected, mv)) =>
      match b1.computerTurn selected with
      | none => none
      | some (b2, mvs) => some (b2, mv :: mvs)
  else some (b, [])

/-- A call `MovePiece(prev, nxt, d)` as the game loop makes it: the piece on `prev` has
owner `p` (-1 or 1), `nxt` is the next row in the direction `p` and one column to the side
named by `d`, `isValid(nxt, p, d)` has returned true, and the call returns the board `b1`
and the cell `r`. -/
def loopCall (b : Board) (p : Int) (prev nxt : Coord) (d : String) (b1 : Board) (r : Cell) :
    Prop :=
  (p = -1 ∨ p = 1) ∧ b.ownerAt prev = some p ∧ nxt.1 = prev.1 + p ∧
    ((d = "left" ∧ nxt.2 = prev.2 - 1) ∨ (d = "right" ∧ nxt.2 = prev.2 + 1)) ∧
    b.isValid nxt p d = some true ∧ b.MovePiece prev nxt d = some (b1, r)

/-- The dark-square property: every occupied cell `(r, c)` has `r + c` odd. -/
def darkSquares (b : Board) : Prop :=
  ∀ c : Cell, b.owner c ≠ 0 → (c.coord.1 + c.coord.2) % 2 = 1

instance (b : Board) : Decidable b.darkSquares := by
  unfold darkSquares
  infer_instance

/-- The state of the cached pointers: an empty cell has null `left` and `right`, and a
non-null `left` (`right`) of a cell at `(r, c)` with owner `p` goes with `(r + p, c - 1)`
(`(r + p, c + 1)`) being inside the grid. -/
def pointersValid (b : Board) : Prop :=
  ∀ c : Cell,
    (b.owner c = 0 → (b.cells c).left = none ∧ (b.cells c).right = none) ∧
    ((b.cells c).left ≠ none → CheckBounds (c.coord.1 + b.owner c, c.coord.2 - 1) = true) ∧
    ((b.cells c).right ≠ none → CheckBounds (c.coord.1 + b.owner c, c.coord.2 + 1) = true)

instance (b : Board) : Decidable b.pointersValid := by
  unfold pointersValid
  infer_instance

/-- The iteration rejects what was typed: either the selection fails `CheckOwner`, or both
guarded tests are evaluated and the typed key is neither an offered "l" nor an offered
"r". -/
def rejects (b : Board) (input direction : String) : Prop :=
  b.CheckOwner (CheckInput input) (-1) = false ∨
    ∃ selected m0 m1, b.GetPiece (CheckInput input) = some selected ∧
      b.guarded (b.cells selected).left ((CheckInput input).1 - 1, (CheckInput input).2 - 1)
        (b.owner selected) "left" = some m0 ∧
      b.guarded (b.cells selected).right ((CheckInput input).1 - 1, (CheckInput input).2 + 1)
        (b.owner selected) "right" = some m1 ∧
      ¬ (directionKey direction = 'l' ∧ m0 = true) ∧
      ¬ (directionKey direction = 'r' ∧ m1 = true)

/-- Player 1 has no piece or no legal action: for every cell owned by -1, `isValid` accepts
neither forward-diagonal target. -/
def noAction (b : Board) : Prop :=
  ∀ c : Cell, b.owner c = -1 →
    b.isValid (c.coord.1 - 1, c.coord.2 - 1) (-1) "left" ≠ some true ∧
    b.isValid (c.coord.1 - 1, c.coord.2 + 1) (-1) "right" ≠ some true

instance (b : Board) : Decidable b.noAction := by
  unfold noAction
  infer_instance

/-- The number of iterations of the do-while loop of `main` that are executed on a list of
typed (input, direction) pairs: the loop is left only after an iteration whose input is
"q". -/
def iterations (b : Board) : List (String × String) → Option Nat
  | [] => some 0
  | (input, direction) :: rest =>
    match b.loopBody input direction with
    | none => none
    | some (b1, _) =>
      if input = "q" then some 1 else (iterations b1 rest).map fun n => n + 1

/-- The do-while loop of `main` run on a list of typed (input, direction) pairs: it stops
after the iteration whose input is "q". -/
def run (b : Board) : List (String × String) → Option Board
  | [] => some b
  | (input, direction) :: rest =>
    match b.loopBody input direction with
    | none => none
    | some (b1, _) => if input = "q" then some b1 else run b1 rest

end Board

/-- The geometry of a recorded move of a piece of owner `p`: either a simple move (the piece
ends on `next`, which is one row forward and one column to the side of `previous`) or a jump
(the piece ends two rows forward and two columns to the side, and `next`, the cell jumped
over, is the midpoint of `previous` and the landing cell). -/
def Move.forwardFor (p : Int) (mv : Move) : Prop :=
  (mv.result.coord = mv.next ∧ mv.next.1 = mv.previous.1 + p ∧
      (mv.next.2 = mv.previous.2 - 1 ∨ mv.next.2 = mv.previous.2 + 1)) ∨
    (mv.result.coord.1 = mv.previous.1 + 2 * p ∧
      (mv.result.coord.2 = mv.previous.2 - 2 ∨ mv.result.coord.2 = mv.previous.2 + 2) ∧
      2 * mv.next.1 = mv.previous.1 + mv.result.coord.1 ∧
      2 * mv.next.2 = mv.previous.2 + mv.result.coord.2)

instance (p : Int) (mv : Move) : Decidable (mv.forwardFor p) := by
  unfold Move.forwardFor
  infer_instance

/-- Four typed rounds (selection, direction) from the constructed board, after which a
player-1 piece on (7,2) can jump twice in a row. -/
def chainInputs : List (String × String) :=
  [("16", "r"), ("25", "l"), ("36", "l"), ("47", "l")]

/-- The board after the rounds `chainInputs`. -/
def chainBoard : Board := (Board.construct.run chainInputs).getD Board.blank

/-- Three typed rounds from the constructed board, the last of which captures the computer
piece that has walked to (4,5). -/
def staleInputs : List (String × String) := [("16", "r"), ("25", "l"), ("76", "l")]

/-- The board after the rounds `staleInputs`. -/
def staleBoard : Board := (Board.construct.run staleInputs).getD Board.blank

/-- Six typed rounds from the constructed board, after which the player's move from (6,3)
leaves the computer with valid moves to the right only. -/
def stuckInputs : List (String × String) :=
  [("16", "r"), ("25", "l"), ("76", "l"), ("27", "l"), ("16", "r"), ("36", "l")]

/-- The board after the rounds `stuckInputs`. -/
def stuckBoard : Board := (Board.construct.run stuckInputs).getD Board.blank

/-- Sixteen typed rounds from the constructed board, after which no player-1 piece has a
move. -/
def termInputs : List (String × String) :=
  [("76", "r"), ("56", "l"), ("16", "r"), ("67", "l"), ("85", "l"), ("58", "r"), ("67", "r"),
   ("78", "l"), ("27", "l"), ("76", "l"), ("67", "l"), ("18", "r"), ("74", "r"), ("87", "l"),
   ("65", "r"), ("76", "l")]

/-- The board after the rounds `termInputs`. -/
def termBoard : Board := (Board.construct.run termInputs).getD Board.blank

/-- The boards the game can be in at the top of the do-while loop of `main`. -/
inductive Reachable : Board → Prop
  | start : Reachable Board.construct
  | step (b b1 : Board) (input direction : String) (mvs : List Move) :
      Reachable b → b.loopBody input direction = some (b1, mvs) → Reachable b1

/-! ## Basic facts about indexing and the field updates -/

namespace Board

theorem CheckBounds_iff (c : Coord) :
    CheckBounds c = true ↔ (0 ≤ c.1 ∧ c.1 ≤ 7) ∧ (0 ≤ c.2 ∧ c.2 ≤ 7) := by
  unfold CheckBounds
  by_cases h1 : c.1 < 0 ∨ c.1 > 7
  · simp only [h1, if_true]; constructor
    · intro h; cases h
    · intro h; omega
  · by_cases h2 : c.2 < 0 ∨ c.2 > 7
    · simp only [h1, h2, if_true, if_false]; constructor
      · intro h; cases h
      · intro h; omega
    · simp only [h1, h2, if_false]; constructor
      · intro _; omega
      · intro _; trivial

theorem toCell_coord (p : Cell) : toCell p.coord = some p := by
  obtain ⟨⟨i, hi⟩, ⟨j, hj⟩⟩ := p
  have h : (0 ≤ (i : Int) ∧ (i : Int) < 8) ∧ (0 ≤ (j : Int) ∧ (j : Int) < 8) := by omega
  simp [toCell, Cell.coord, h]

theorem toCell_eq_some_iff (c : Coord) (p : Cell) : toCell c = some p ↔ p.coord = c := by
  constructor
  · intro h
    unfold toCell at h
    split at h
    · rename_i hb
      injection h with h
      subst h
      obtain ⟨r, k⟩ := c
      simp only [Cell.coord] at *
      have h1 : ((r.toNat : Nat) : Int) = r := Int.toNat_of_nonneg hb.1.1
      have h2 : ((k.toNat : Nat) : Int) = k := Int.toNat_of_nonneg hb.2.1
      simp [h1, h2]
    · cases h
  · intro h; subst h; exact toCell_coord p

theorem toCell_isSome_of_CheckBounds (c : Coord) (h : CheckBounds c = true) :
    ∃ p, toCell c = some p ∧ p.coord = c := by
  rw [CheckBounds_iff] at h
  have hb : (0 ≤ c.1 ∧ c.1 < 8) ∧ (0 ≤ c.2 ∧ c.2 < 8) := by omega
  refine ⟨(⟨c.1.toNat, by omega⟩, ⟨c.2.toNat, by omega⟩), ?_, ?_⟩
  · simp [toCell, hb]
  · rw [← toCell_eq_some_iff]; simp [toCell, hb]

theorem CheckBounds_coord (p : Cell) : CheckBounds p.coord = true := by
  rw [CheckBounds_iff]
  obtain ⟨⟨i, hi⟩, ⟨j, hj⟩⟩ := p
  simp only [Cell.coord]; omega

theorem toCell_eq_none_of_not_CheckBounds (c : Coord) (h : ¬ CheckBounds c = true) :
    toCell c = none := by
  cases hc : toCell c with
  | none => rfl
  | some p =>
    rw [toCell_eq_some_iff] at hc
    exact absurd (hc ▸ CheckBounds_coord p) h

theorem GetPiece_eq_toCell (b : Board) (c : Coord) : b.GetPiece c = toCell c := by
  unfold GetPiece
  by_cases h : CheckBounds c = true
  · simp [h]
  · simp [h, toCell_eq_none_of_not_CheckBounds c h]

@[simp] theorem owner_setOwner (b : Board) (p q : Cell) (v : Int) :
    (b.setOwner p v).owner q = if q = p then v else b.owner q := by
  unfold setOwner owner
  by_cases h : q = p
  · subst h; simp
  · simp [h, Function.update_noteq h]

@[simp] theorem owner_setLeft (b : Board) (p q : Cell) (x : Option Cell) :
    (b.setLeft p x).owner q = b.owner q := by
  unfold setLeft owner
  by_cases h : q = p
  · subst h; simp
  · simp [Function.update_noteq h]

@[simp] theorem owner_setRight (b : Board) (p q : Cell) (x : Option Cell) :
    (b.setRight p x).owner q = b.owner q := by
  unfold setRight owner
  by_cases h : q = p
  · subst h; simp
  · simp [Function.update_noteq h]

@[simp] theorem owner_vacate (b : Board) (p q : Cell) :
    (b.vacate p).owner q = if q = p then 0 else b.owner q := by
  simp [vacate]

@[simp] theorem owner_ite_setLeft (b : Board) (c : Prop) [Decidable c] (p q : Cell)
    (x : Option Cell) : (if c then b.setLeft p x else b).owner q = b.owner q := by
  split <;> simp

@[simp] theorem owner_ite_setRight (b : Board) (c : Prop) [Decidable c] (p q : Cell)
    (x : Option Cell) : (if c then b.setRight p x else b).owner q = b.owner q := by
  split <;> simp

@[simp] theorem computerPieces_setOwner (b : Board) (p : Cell) (v : Int) :
    (b.setOwner p v).computerPieces = b.computerPieces := rfl

@[simp] theorem computerPieces_setLeft (b : Board) (p : Cell) (x : Option Cell) :
    (b.setLeft p x).computerPieces = b.computerPieces := rfl

@[simp] theorem computerPieces_setRight (b : Board) (p : Cell) (x : Option Cell) :
    (b.setRight p x).computerPieces = b.computerPieces := rfl

@[simp] theorem computerPieces_vacate (b : Board) (p : Cell) :
    (b.vacate p).computerPieces = b.computerPieces := rfl

@[simp] theorem computerPieces_ite_setLeft (b : Board) (c : Prop) [Decidable c] (p : Cell)
    (x : Option Cell) : (if c then b.setLeft p x else b).computerPieces = b.computerPieces := by
  split <;> rfl

@[simp] theorem computerPieces_ite_setRight (b : Board) (c : Prop) [Decidable c] (p : Cell)
    (x : Option Cell) : (if c then b.setRight p x else b).computerPieces = b.computerPieces := by
  split <;> rfl

theorem ownerAt_eq (b : Board) (c : Coord) : b.ownerAt c = (toCell c).map b.owner := by
  unfold ownerAt
  rw [GetPiece_eq_toCell]

theorem ownerAt_coord (b : Board) (p : Cell) : b.ownerAt p.coord = some (b.owner p) := by
  rw [ownerAt_eq, toCell_coord]
  rfl

theorem ownerAt_eq_some_iff (b : Board) (c : Coord) (v : Int) :
    b.ownerAt c = some v ↔ ∃ p, toCell c = some p ∧ b.owner p = v := by
  rw [ownerAt_eq]
  cases h : toCell c with
  | none => simp
  | some p => simp

/-! ## The two branches of `MovePiece` -/

/-- The owners after a `MovePiece` that takes the simple-move branch. -/
theorem MovePiece_simple_branch (b : Board) (previous nxt : Coord) (direction : String)
    (p1 p2 : Cell) (h1 : toCell previous = some p1) (h2 : toCell nxt = some p2)
    (hj : b.owner p1 ≠ b.owner p2 * -1) :
    ∃ b1, b.MovePiece previous nxt direction = some (b1, p2) ∧
      b1.computerPieces = b.computerPieces ∧
      ∀ q, b1.owner q = if q = p1 then 0 else if q = p2 then b.owner p1 else b.owner q := by
  unfold MovePiece
  simp only [h1, h2, hj, if_false]
  refine ⟨_, rfl, ?_, ?_⟩
  · simp
  · intro q
    simp

/-- The owners after a `MovePiece` that takes the jump branch. -/
theorem MovePiece_jump_branch (b : Board) (previous nxt : Coord) (direction : String)
    (p1 p2 p3 : Cell) (h1 : toCell previous = some p1) (h2 : toCell nxt = some p2)
    (hj : b.owner p1 = b.owner p2 * -1) (h3 : b.landing p1 nxt direction = some p3) :
    ∃ b1, b.MovePiece previous nxt direction = some (b1, p3) ∧
      b1.computerPieces = b.computerPieces ∧
      ∀ q, b1.owner q =
        if q = p1 then 0 else if q = p2 then 0 else if q = p3 then b.owner p1
        else b.owner q := by
  unfold MovePiece
  unfold landing at h3
  simp only [h1, h2, hj, if_true]
  rw [hj] at h3
  simp only [h3]
  refine ⟨_, rfl, ?_, ?_⟩
  · simp
  · intro q
    simp

/-- The jump branch fails when no landing cell is computed. -/
theorem MovePiece_jump_none (b : Board) (previous nxt : Coord) (direction : String)
    (p1 p2 : Cell) (h1 : toCell previous = some p1) (h2 : toCell nxt = some p2)
    (hj : b.owner p1 = b.owner p2 * -1) (h3 : b.landing p1 nxt direction = none) :
    b.MovePiece previous nxt direction = none := by
  unfold MovePiece
  unfold landing at h3
  simp only [h1, h2, hj, if_true]
  rw [hj] at h3
  simp only [h3]

/-! ## The constructed board and the effect of a move -/

set_option maxRecDepth 100000 in
/-- C1 (the code departs from the claim): the constructed board has a thirteenth player-2
piece on `board[4][3]`, placed by the statement after the comment `FOR JUMP TESTING`.  Owner
1 holds 13 cells, owner -1 holds 12, row 4 is not empty; every cell other than (4,3) is as
the claim describes. -/
theorem construct_jump_test_piece :
    construct.ownerAt (4, 3) = some 1 ∧ construct.countOwner 1 = 13 ∧
      construct.countOwner (-1) = 12 ∧ construct.countOccupied = 25 ∧
      ∀ c : Cell, c ≠ (4, 3) →
        construct.owner c =
          if c.1.val ≤ 2 ∧ c.2.val % 2 = (c.1.val + 1) % 2 then 1
          else if 5 ≤ c.1.val ∧ c.2.val % 2 = (c.1.val + 1) % 2 then -1
          else 0 := by
  decide

/-- C2: a simple move.  When `src` and `dst` are in bounds, `src` is owned by `P` (-1 or 1)
and `dst` is empty, `MovePiece(src, dst, direction)` succeeds for every direction string,
returns the cell `dst`, leaves `src` empty and `dst` owned by `P`, and does not change the
owner of any other cell. -/
theorem MovePiece_simple_move (b : Board) (src dst : Coord) (direction : String) (P : Int)
    (hs : CheckBounds src = true) (hd : CheckBounds dst = true) (hP : P = -1 ∨ P = 1)
    (hsrc : b.ownerAt src = some P) (hdst : b.ownerAt dst = some 0) :
    ∃ b1 result, b.MovePiece src dst direction = some (b1, result) ∧ result.coord = dst ∧
      b1.ownerAt src = some 0 ∧ b1.ownerAt dst = some P ∧
      ∀ c : Coord, c ≠ src → c ≠ dst → b1.ownerAt c = b.ownerAt c := by
  obtain ⟨p1, h1, hc1⟩ := toCell_isSome_of_CheckBounds src hs
  obtain ⟨p2, h2, hc2⟩ := toCell_isSome_of_CheckBounds dst hd
  have ho1 : b.owner p1 = P := by
    rw [ownerAt_eq, h1] at hsrc; simpa using hsrc
  have ho2 : b.owner p2 = 0 := by
    rw [ownerAt_eq, h2] at hdst; simpa using hdst
  have hne : p2 ≠ p1 := by
    intro h; rw [h, ho1] at ho2; omega
  have hj : b.owner p1 ≠ b.owner p2 * -1 := by
    rw [ho1, ho2]; omega
  obtain ⟨b1, hm, _, hown⟩ := MovePiece_simple_branch b src dst direction p1 p2 h1 h2 hj
  refine ⟨b1, p2, hm, hc2, ?_, ?_, ?_⟩
  · rw [ownerAt_eq, h1]; simp [hown]
  · rw [ownerAt_eq, h2]; simp [hown, hne, ho1]
  · intro c hcs hcd
    rw [ownerAt_eq, ownerAt_eq]
    cases hc : toCell c with
    | none => rfl
    | some q =>
      rw [toCell_eq_some_iff] at hc
      have hq1 : q ≠ p1 := by intro h; apply hcs; rw [← hc, h, hc1]
      have hq2 : q ≠ p2 := by intro h; apply hcd; rw [← hc, h, hc2]
      simp [hown, hq1, hq2]

/-- Witness for C2: on the constructed board the piece on (5,0) steps to the empty (4,1). -/
theorem MovePiece_simple_move_witness :
    ∃ b1 result, construct.MovePiece (5, 0) (4, 1) "right" = some (b1, result) ∧
      result.coord = (4, 1) ∧ b1.ownerAt (5, 0) = some 0 ∧ b1.ownerAt (4, 1) = some (-1) ∧
      ∀ c : Coord, c ≠ (5, 0) → c ≠ (4, 1) → b1.ownerAt c = construct.ownerAt c :=
  MovePiece_simple_move construct (5, 0) (4, 1) "right" (-1) (by decide) (by decide)
    (by decide) (by decide) (by decide)
/-! ## Counting pieces -/

theorem allCells_nodup : allCells.Nodup := by decide

theorem mem_allCells (c : Cell) : c ∈ allCells := by
  revert c; decide

theorem countP_update_aux (P : Int → Bool) (f : Cell → Int) (a : Cell) (v : Int) :
    ∀ l : List Cell, l.Nodup →
      l.countP (fun c => P (Function.update f a v c)) + (if a ∈ l ∧ P (f a) = true then 1 else 0)
        = l.countP (fun c => P (f c)) + (if a ∈ l ∧ P v = true then 1 else 0)
  | [], _ => by simp
  | x :: xs, hl => by
    have hx : x ∉ xs := (List.nodup_cons.mp hl).1
    have ih := countP_update_aux P f a v xs (List.nodup_cons.mp hl).2
    by_cases hxa : x = a
    · subst hxa
      simp only [hx, false_and, if_false, Nat.add_zero] at ih
      rw [List.countP_cons, List.countP_cons, ih]
      simp only [Function.update_same, List.mem_cons, true_or, true_and]
      by_cases h1 : P v = true <;> by_cases h2 : P (f x) = true <;> simp [h1, h2]
    · have hax : a ≠ x := fun h => hxa h.symm
      rw [List.countP_cons, List.countP_cons]
      simp only [Function.update_noteq hxa, List.mem_cons, hax, false_or]
      omega

theorem countIf_update (P : Int → Bool) (f : Cell → Int) (a : Cell) (v : Int) :
    countIf P (Function.update f a v) + (if P (f a) = true then 1 else 0)
      = countIf P f + (if P v = true then 1 else 0) := by
  have h := countP_update_aux P f a v allCells allCells_nodup
  simpa [mem_allCells, countIf] using h

theorem countOccupied_eq (b : Board) : b.countOccupied = countIf isOccupied b.owner := rfl

theorem countOwner_eq (b : Board) (p : Int) : b.countOwner p = countIf (isOwner p) b.owner :=
  rfl

theorem owner_eq_updates_simple (b b1 : Board) (p1 p2 : Cell)
    (hown : ∀ q, b1.owner q = if q = p1 then 0 else if q = p2 then b.owner p1 else b.owner q) :
    b1.owner = Function.update (Function.update b.owner p2 (b.owner p1)) p1 0 := by
  funext q
  rw [hown q]
  simp [Function.update_apply]

theorem owner_eq_updates_jump (b b1 : Board) (p1 p2 p3 : Cell)
    (hown : ∀ q, b1.owner q =
      if q = p1 then 0 else if q = p2 then 0 else if q = p3 then b.owner p1 else b.owner q) :
    b1.owner =
      Function.update (Function.update (Function.update b.owner p3 (b.owner p1)) p2 0) p1 0 := by
  funext q
  rw [hown q]
  simp [Function.update_apply]

theorem landing_eq_toCell (b : Board) (p1 : Cell) (over : Coord) (direction : String)
    (hd : direction = "left" ∨ direction = "right") :
    b.landing p1 over direction = toCell (landingCoord over (b.owner p1) direction) := by
  unfold landing landingCoord
  rcases hd with h | h
  · simp [h]
  · have hne : ¬ direction = "left" := by rw [h]; decide
    simp [h, hne]

/-- C3: a jump.  When `src` is owned by `p` (-1 or 1), `over` by the opponent `-p`, the
direction is "left" or "right" and the landing cell beyond `over` is in bounds and empty,
`MovePiece(src, over, direction)` succeeds, returns the landing cell, leaves `src` and
`over` empty and the landing cell owned by `p`, changes no other owner, and the number of
occupied cells drops by exactly one. -/
theorem MovePiece_jump (b : Board) (src over : Coord) (direction : String) (p : Int)
    (hs : CheckBounds src = true) (ho : CheckBounds over = true) (hp : p = -1 ∨ p = 1)
    (hd : direction = "left" ∨ direction = "right")
    (hsrc : b.ownerAt src = some p) (hover : b.ownerAt over = some (-p))
    (hl : CheckBounds (landingCoord over p direction) = true)
    (hle : b.ownerAt (landingCoord over p direction) = some 0) :
    ∃ b1 result, b.MovePiece src over direction = some (b1, result) ∧
      result.coord = landingCoord over p direction ∧
      b1.ownerAt src = some 0 ∧ b1.ownerAt over = some 0 ∧
      b1.ownerAt (landingCoord over p direction) = some p ∧
      (∀ c : Coord, c ≠ src → c ≠ over → c ≠ landingCoord over p direction →
        b1.ownerAt c = b.ownerAt c) ∧
      b1.countOccupied + 1 = b.countOccupied := by
  obtain ⟨p1, h1, hc1⟩ := toCell_isSome_of_CheckBounds src hs
  obtain ⟨p2, h2, hc2⟩ := toCell_isSome_of_CheckBounds over ho
  obtain ⟨p3, h3, hc3⟩ := toCell_isSome_of_CheckBounds _ hl
  have ho1 : b.owner p1 = p := by
    rw [ownerAt_eq, h1] at hsrc; simpa using hsrc
  have ho2 : b.owner p2 = -p := by
    rw [ownerAt_eq, h2] at hover; simpa using hover
  have ho3 : b.owner p3 = 0 := by
    rw [ownerAt_eq, h3] at hle; simpa using hle
  have hj : b.owner p1 = b.owner p2 * -1 := by
    rw [ho1, ho2]; omega
  have hland : b.landing p1 over direction = some p3 := by
    rw [landing_eq_toCell b p1 over direction hd, ho1, h3]
  have h12 : p1 ≠ p2 := by
    intro h; rw [h, ho2] at ho1; omega
  have h13 : p1 ≠ p3 := by
    intro h; rw [h, ho3] at ho1; omega
  have h23 : p2 ≠ p3 := by
    intro h; rw [h, ho3] at ho2; omega
  obtain ⟨b1, hm, _, hown⟩ :=
    MovePiece_jump_branch b src over direction p1 p2 p3 h1 h2 hj hland
  refine ⟨b1, p3, hm, hc3, ?_, ?_, ?_, ?_, ?_⟩
  · rw [ownerAt_eq, h1]; simp [hown]
  · rw [ownerAt_eq, h2]; simp [hown]
  · rw [ownerAt_eq, h3]; simp [hown, h13.symm, h23.symm, ho1]
  · intro c hcs hco hcl
    rw [ownerAt_eq, ownerAt_eq]
    cases hc : toCell c with
    | none => rfl
    | some q =>
      rw [toCell_eq_some_iff] at hc
      have hq1 : q ≠ p1 := by intro h; apply hcs; rw [← hc, h, hc1]
      have hq2 : q ≠ p2 := by intro h; apply hco; rw [← hc, h, hc2]
      have hq3 : q ≠ p3 := by intro h; apply hcl; rw [← hc, h, hc3]
      simp [hown, hq1, hq2, hq3]
  · rw [countOccupied_eq, countOccupied_eq, owner_eq_updates_jump b b1 p1 p2 p3 hown]
    have e3 := countIf_update isOccupied b.owner p3 (b.owner p1)
    have e2 := countIf_update isOccupied (Function.update b.owner p3 (b.owner p1)) p2 0
    have e1 := countIf_update isOccupied
      (Function.update (Function.update b.owner p3 (b.owner p1)) p2 0) p1 0
    have v0 : isOccupied 0 = false := rfl
    have v1 : isOccupied (b.owner p1) = true := by
      rw [ho1]; rcases hp with h | h <;> subst h <;> rfl
    have v2 : isOccupied (b.owner p2) = true := by
      rw [ho2]; rcases hp with h | h <;> subst h <;> rfl
    have v3 : isOccupied (b.owner p3) = false := by rw [ho3]; rfl
    simp only [Function.update_noteq h12, Function.update_noteq h13,
      Function.update_noteq h23, v0, v1, v2, v3, Bool.false_eq_true, if_true, if_false] at e1 e2 e3
    omega

/-- Witness for C3: on the constructed board the piece on (5,2) jumps right over the
player-2 piece on (4,3) and lands on (3,4). -/
theorem MovePiece_jump_witness :
    ∃ b1 result, construct.MovePiece (5, 2) (4, 3) "right" = some (b1, result) ∧
      result.coord = landingCoord (4, 3) (-1) "right" ∧
      b1.ownerAt (5, 2) = some 0 ∧ b1.ownerAt (4, 3) = some 0 ∧
      b1.ownerAt (landingCoord (4, 3) (-1) "right") = some (-1) ∧
      (∀ c : Coord, c ≠ (5, 2) → c ≠ (4, 3) → c ≠ landingCoord (4, 3) (-1) "right" →
        b1.ownerAt c = construct.ownerAt c) ∧
      b1.countOccupied + 1 = construct.countOccupied :=
  MovePiece_jump construct (5, 2) (4, 3) "right" (-1) (by decide) (by decide) (by decide)
    (by decide) (by decide) (by decide) (by decide) (by decide)

/-! ## The legality test `isValid` -/

set_option maxRecDepth 100000 in
theorem ownersValid_construct : construct.ownersValid := by decide

/-- The owners stay among 0, -1 and 1 under `MovePiece`. -/
theorem ownersValid_MovePiece (b b1 : Board) (previous nxt : Coord) (direction : String)
    (r : Cell) (hv : b.ownersValid) (hm : b.MovePiece previous nxt direction = some (b1, r)) :
    b1.ownersValid := by
  cases h1 : toCell previous with
  | none => simp [MovePiece, h1] at hm
  | some p1 =>
    cases h2 : toCell nxt with
    | none => simp [MovePiece, h1, h2] at hm
    | some p2 =>
      by_cases hj : b.owner p1 = b.owner p2 * -1
      · cases h3 : b.landing p1 nxt direction with
        | none =>
          rw [MovePiece_jump_none b previous nxt direction p1 p2 h1 h2 hj h3] at hm
          cases hm
        | some p3 =>
          obtain ⟨b2, hm2, _, hown⟩ :=
            MovePiece_jump_branch b previous nxt direction p1 p2 p3 h1 h2 hj h3
          rw [hm2] at hm
          injection hm with hm
          injection hm with hb _
          subst hb
          intro q
          rw [hown q]
          split_ifs
          · simp
          · simp
          · exact hv p1
          · exact hv q
      · obtain ⟨b2, hm2, _, hown⟩ :=
          MovePiece_simple_branch b previous nxt direction p1 p2 h1 h2 hj
        rw [hm2] at hm
        injection hm with hm
        injection hm with hb _
        subst hb
        intro q
        rw [hown q]
        split_ifs
        · simp
        · exact hv p1
        · exact hv q

/-- C4: the legality rule.  On a board whose owner fields are 0, -1 or 1, for an in-bounds
target, `p` in {-1, 1} and any direction string, `isValid(target, p, d)` returns a value,
and that value is true exactly when the target is empty, or the target is owned by the
opponent `-p` and the landing cell beyond it is in bounds and empty. -/
theorem isValid_iff (b : Board) (target : Coord) (p : Int) (d : String)
    (hv : b.ownersValid) (ht : CheckBounds target = true) (hp : p = -1 ∨ p = 1) :
    ∃ r, b.isValid target p d = some r ∧
      (r = true ↔
        (b.ownerAt target = some 0 ∨
          (b.ownerAt target = some (-p) ∧ CheckBounds (landingCoord target p d) = true ∧
            b.ownerAt (landingCoord target p d) = some 0))) := by
  obtain ⟨t, h1, -⟩ := toCell_isSome_of_CheckBounds target ht
  have hat : b.ownerAt target = some (b.owner t) := by rw [ownerAt_eq, h1]; rfl
  unfold isValid
  rw [GetPiece_eq_toCell, h1, hat]
  simp only
  by_cases hown : b.owner t = p
  · refine ⟨false, by simp [hown], ?_⟩
    rw [hown]
    constructor
    · intro h; cases h
    · rintro (h | ⟨h, -⟩)
      · injection h with h; omega
      · injection h with h; omega
  · by_cases h0 : b.owner t = 0
    · have hp0 : ¬ (0 : Int) = p := by omega
      exact ⟨true, by simp [h0, hp0], by simp [h0]⟩
    · have hopp : b.owner t = -p := by
        rcases hv t with h | h | h <;> omega
      have hL : ∀ L : Coord,
          ∃ r, (match b.GetPiece L with
              | some jump => if b.owner jump = 0 then some true else some false
              | none => some false) = some r ∧
            (r = true ↔ (CheckBounds L = true ∧ b.ownerAt L = some 0)) := by
        intro L
        rw [GetPiece_eq_toCell, ownerAt_eq]
        cases hc : toCell L with
        | none => exact ⟨false, rfl, by simp⟩
        | some j =>
          have hb : CheckBounds L = true := by
            rw [toCell_eq_some_iff] at hc; rw [← hc]; exact CheckBounds_coord j
          by_cases hj : b.owner j = 0
          · exact ⟨true, by simp [hj], by simp [hj, hb]⟩
          · exact ⟨false, by simp [hj], by simp [hj]⟩
      have h0p : ¬ (some (b.owner t) = some (0 : Int)) := by
        intro h; injection h with h; exact h0 h
      by_cases hd : d = "left"
      · obtain ⟨r, hr, hiff⟩ := hL (target.1 + p, target.2 - 1)
        refine ⟨r, by simp only [hown, h0, hd, if_true, if_false]; exact hr, ?_⟩
        rw [hiff]
        simp [landingCoord, hd, hopp, h0p]
        intro h
        omega
      · obtain ⟨r, hr, hiff⟩ := hL (target.1 + p, target.2 + 1)
        refine ⟨r, by simp only [hown, h0, hd, if_true, if_false]; exact hr, ?_⟩
        rw [hiff]
        simp [landingCoord, hd, hopp, h0p]
        intro h
        omega

set_option maxRecDepth 100000 in
/-- Witness for C4: on the constructed board, `isValid((4,3), -1, "right")` is decided by
the rule (the target holds the player-2 piece and the landing cell (3,4) is empty). -/
theorem isValid_iff_witness :
    ∃ r, construct.isValid (4, 3) (-1) "right" = some r ∧
      (r = true ↔
        (construct.ownerAt (4, 3) = some 0 ∨
          (construct.ownerAt (4, 3) = some (- -1) ∧
            CheckBounds (landingCoord (4, 3) (-1) "right") = true ∧
            construct.ownerAt (landingCoord (4, 3) (-1) "right") = some 0))) :=
  isValid_iff construct (4, 3) (-1) "right" (by decide) (by decide) (by decide)

/-- What a `true` answer of `isValid` says about the cells it looked at. -/
theorem isValid_true_cases (b : Board) (target : Coord) (p : Int) (d : String)
    (h : b.isValid target p d = some true) :
    ∃ t, toCell target = some t ∧ b.owner t ≠ p ∧
      (b.owner t = 0 ∨
        (b.owner t ≠ 0 ∧ ∃ j, toCell (landingCoord target p d) = some j ∧ b.owner j = 0)) := by
  unfold isValid at h
  rw [GetPiece_eq_toCell] at h
  cases h1 : toCell target with
  | none => rw [h1] at h; cases h
  | some t =>
    rw [h1] at h
    simp only at h
    refine ⟨t, rfl, ?_⟩
    by_cases hown : b.owner t = p
    · simp [hown] at h
    · refine ⟨hown, ?_⟩
      by_cases h0 : b.owner t = 0
      · exact Or.inl h0
      · refine Or.inr ⟨h0, ?_⟩
        simp only [hown, h0, if_false] at h
        unfold landingCoord
        by_cases hd : d = "left"
        · simp only [hd, if_true] at h ⊢
          rw [GetPiece_eq_toCell] at h
          cases hc : toCell (target.1 + p, target.2 - 1) with
          | none => rw [hc] at h; cases h
          | some j =>
            rw [hc] at h
            refine ⟨j, rfl, ?_⟩
            by_cases hj : b.owner j = 0
            · exact hj
            · simp [hj] at h
        · simp only [hd, if_false] at h ⊢
          rw [GetPiece_eq_toCell] at h
          cases hc : toCell (target.1 + p, target.2 + 1) with
          | none => rw [hc] at h; cases h
          | some j =>
            rw [hc] at h
            refine ⟨j, rfl, ?_⟩
            by_cases hj : b.owner j = 0
            · exact hj
            · simp [hj] at h

/-- C5: applying a validated action never fails.  On a board whose owner fields are 0, -1
or 1, if `src` is in bounds and owned by `p` (-1 or 1), `target` is its in-bounds
forward-diagonal cell in the direction `d` ("left" or "right") and `isValid(target, p, d)`
is true, then `MovePiece(src, target, d)` touches only cells of the grid (it returns), the
piece ends on `target` or on the landing cell beyond it, that cell was empty before the
call, and it holds the piece afterwards.  (The proof does not use that `target` is the
forward-diagonal cell: the conclusion holds for every target that `isValid` accepts.) -/
theorem MovePiece_of_isValid (b : Board) (src target : Coord) (d : String) (p : Int)
    (hv : b.ownersValid) (hs : CheckBounds src = true) (_ht : CheckBounds target = true)
    (hp : p = -1 ∨ p = 1) (hd : d = "left" ∨ d = "right")
    (_hfwd : target = forwardTarget src p d) (hsrc : b.ownerAt src = some p)
    (hval : b.isValid target p d = some true) :
    ∃ b1 result, b.MovePiece src target d = some (b1, result) ∧
      (result.coord = target ∨ result.coord = landingCoord target p d) ∧
      b.owner result = 0 ∧ b1.owner result = p := by
  obtain ⟨p1, h1, -⟩ := toCell_isSome_of_CheckBounds src hs
  have ho1 : b.owner p1 = p := by
    rw [ownerAt_eq, h1] at hsrc; simpa using hsrc
  obtain ⟨t, h2, hne, hcase⟩ := isValid_true_cases b target p d hval
  have h1t : t ≠ p1 := by
    intro h; rw [h] at hne; exact hne ho1
  rcases hcase with h0 | ⟨h0, j, hj, hj0⟩
  · have hjmp : b.owner p1 ≠ b.owner t * -1 := by rw [ho1, h0]; omega
    obtain ⟨b1, hm, _, hown⟩ := MovePiece_simple_branch b src target d p1 t h1 h2 hjmp
    refine ⟨b1, t, hm, Or.inl ((toCell_eq_some_iff _ _).mp h2), h0, ?_⟩
    rw [hown t]; simp [h1t, ho1]
  · have hopp : b.owner t = -p := by
      rcases hv t with h | h | h <;> omega
    have hjmp : b.owner p1 = b.owner t * -1 := by rw [ho1, hopp]; omega
    have hland : b.landing p1 target d = some j := by
      rw [landing_eq_toCell b p1 target d hd, ho1, hj]
    obtain ⟨b1, hm, _, hown⟩ := MovePiece_jump_branch b src target d p1 t j h1 h2 hjmp hland
    have hj1 : j ≠ p1 := by
      intro h; rw [h, ho1] at hj0; omega
    have hjt : j ≠ t := by
      intro h; rw [h] at hj0; exact h0 hj0
    refine ⟨b1, j, hm, Or.inr ((toCell_eq_some_iff _ _).mp hj), hj0, ?_⟩
    rw [hown j]; simp [hj1, hjt, ho1]

set_option maxRecDepth 100000 in
/-- Witness for C5: on the constructed board the validated jump of the piece on (5,2) over
(4,3). -/
theorem MovePiece_of_isValid_witness :
    ∃ b1 result, construct.MovePiece (5, 2) (4, 3) "right" = some (b1, result) ∧
      (result.coord = (4, 3) ∨ result.coord = landingCoord (4, 3) (-1) "right") ∧
      construct.owner result = 0 ∧ b1.owner result = -1 :=
  MovePiece_of_isValid construct (5, 2) (4, 3) "right" (-1) (by decide) (by decide)
    (by decide) (by decide) (by decide) (by decide) (by decide) (by decide)

/-! ## Validation happens in the game loop, not in `MovePiece` -/

/-- C6 (counterexample): `MovePiece` validates nothing.  On the constructed board (0,1) and
(1,0) both hold player-2 pieces, so the destination is occupied by the mover's own side;
the call `MovePiece((0,1), (1,0), "left")` nevertheless returns and has emptied (0,1). -/
theorem MovePiece_unvalidated_counterexample :
    construct.ownerAt (0, 1) = some 1 ∧ construct.ownerAt (1, 0) = some 1 ∧
      ∃ b1 r, construct.MovePiece (0, 1) (1, 0) "left" = some (b1, r) ∧
        b1.ownerAt (0, 1) = some 0 ∧ b1.ownerAt (0, 1) ≠ construct.ownerAt (0, 1) := by
  have h1 : toCell ((0, 1) : Coord) = some ((0, 1) : Cell) := by decide
  have h2 : toCell ((1, 0) : Coord) = some ((1, 0) : Cell) := by decide
  have hj : construct.owner (0, 1) ≠ construct.owner (1, 0) * -1 := by decide
  obtain ⟨b1, hm, -, hown⟩ :=
    MovePiece_simple_branch construct (0, 1) (1, 0) "left" (0, 1) (1, 0) h1 h2 hj
  have e0 : b1.ownerAt (0, 1) = some 0 := by
    rw [ownerAt_eq, h1]; simp [hown]
  refine ⟨by decide, by decide, b1, (1, 0), hm, e0, ?_⟩
  rw [e0]
  decide

/-- C6 (as amended): validation is done by the game loop before `MovePiece` is called.  When
an iteration rejects what was typed (the selection is not a player-1 piece, or the typed
direction is not offered because the cached pointer is null or `isValid` returned false, or
the key is neither "l" nor "r"), it ends without calling `MovePiece` and without a computer
move: the board at the end of the iteration is the board at its start. -/
theorem loopBody_rejected_unchanged (b : Board) (input direction : String)
    (h : b.rejects input direction) : b.loopBody input direction = some (b, []) := by
  unfold loopBody
  rcases h with h | ⟨selected, m0, m1, hsel, h0, h1, hl, hr⟩
  · simp [h]
  · by_cases hc : b.CheckOwner (CheckInput input) (-1) = true
    · simp only [hc, if_true]
      have hp : b.playerMove (CheckInput input) direction = some none := by
        unfold playerMove
        simp only [hsel, h0, h1, hl, hr, if_false]
      rw [hp]
    · simp [hc]

set_option maxRecDepth 100000 in
/-- Witness for C6: on the constructed board the player selects (6,1) and types "l"; the
target (5,0) holds a player-1 piece, `isValid` returns false, and the board is unchanged. -/
theorem loopBody_rejected_unchanged_witness :
    construct.ownerAt (5, 0) = some (-1) ∧
      construct.loopBody "27" "l" = some (construct, []) :=
  ⟨by decide, loopBody_rejected_unchanged construct "27" "l"
    (Or.inr ⟨(6, 1), false, false, by decide, by decide, by decide, by decide, by decide⟩)⟩

set_option maxRecDepth 100000 in
/-- C7 (the code departs from the claim): no mandatory capture.  On the constructed board the
player-1 piece on (5,2) has a jump (over the player-2 piece on (4,3) to the empty (3,4)),
and `isValid` accepts it; yet when the player selects that piece ("36") and types "l", the
loop executes the simple move from (5,2) to the empty (4,1), and the computer then moves. -/
theorem loopBody_ignores_mandatory_capture :
    construct.ownerAt (5, 2) = some (-1) ∧ construct.ownerAt (4, 3) = some 1 ∧
      construct.ownerAt (3, 4) = some 0 ∧
      construct.isValid (4, 3) (-1) "right" = some true ∧
      construct.ownerAt (4, 1) = some 0 ∧
      (construct.loopBody "36" "l").map Prod.snd =
        some [{ previous := (5, 2), next := (4, 1), direction := "left", result := (4, 1) },
              { previous := (2, 7), next := (3, 6), direction := "left", result := (3, 6) }] ∧
      (construct.loopBody "36" "l").map (fun r => r.1.ownerAt (4, 1)) = some (some (-1)) := by
  decide

/-- Every board the loop produces from a reachable board is reachable. -/
theorem run_reachable : ∀ (l : List (String × String)) (b b1 : Board),
    Reachable b → b.run l = some b1 → Reachable b1
  | [], b, b1, hr, h => by
    simp only [run] at h
    injection h with h
    exact h ▸ hr
  | (input, direction) :: rest, b, b1, hr, h => by
    simp only [run] at h
    cases hb : b.loopBody input direction with
    | none => rw [hb] at h; cases h
    | some r =>
      obtain ⟨b2, mvs⟩ := r
      rw [hb] at h
      simp only at h
      have hr2 : Reachable b2 := Reachable.step b b2 input direction mvs hr hb
      by_cases hq : input = "q"
      · simp only [hq, if_true] at h
        injection h with h
        exact h ▸ hr2
      · simp only [hq, if_false] at h
        exact run_reachable rest b2 b1 hr2 h

set_option maxRecDepth 1000000 in
theorem run_chainInputs : construct.run chainInputs = some chainBoard := by
  have hs : (construct.run chainInputs).isSome = true := by decide
  unfold chainBoard
  cases h : construct.run chainInputs with
  | none => rw [h] at hs; cases hs
  | some b => rfl

theorem reachable_chainBoard : Reachable chainBoard :=
  run_reachable chainInputs construct chainBoard Reachable.start run_chainInputs

set_option maxRecDepth 1000000 in
/-- C8 (the code departs from the claim): a jump does not keep the turn.  The board
`chainBoard` is reached from the constructed board by four typed rounds.  There the player
selects (7,2) ("38") and types "r": the piece jumps over (6,3) and lands on (5,4), from
where a further jump is available (the cell (4,3) holds a player-2 piece, the cell (3,2)
beyond it is empty, `isValid` accepts it and the cached left pointer is non-null).  The same
iteration nevertheless runs the computer's turn, which moves a piece from (2,3) onto
(3,2). -/
theorem loopBody_jump_passes_turn :
    Reachable chainBoard ∧
      (chainBoard.MovePiece (7, 2) (6, 3) "right").map
          (fun r => (r.2, r.1.ownerAt (4, 3), r.1.ownerAt (3, 2),
            r.1.isValid (4, 3) (-1) "left", ((r.1.cells (5, 4)).left).isSome))
        = some ((5, 4), some 1, some 0, some true, true) ∧
      (chainBoard.loopBody "38" "r").map Prod.snd =
        some [{ previous := (7, 2), next := (6, 3), direction := "right", result := (5, 4) },
              { previous := (2, 3), next := (3, 2), direction := "left", result := (3, 2) }] :=
  ⟨reachable_chainBoard, by decide, by decide⟩

/-! ## The shape of one iteration of the game loop -/

theorem guarded_true (b : Board) (ptr : Option Cell) (target : Coord) (owner : Int)
    (direction : String) (h : b.guarded ptr target owner direction = some true) :
    ptr ≠ none ∧ b.isValid target owner direction = some true := by
  cases ptr with
  | none => simp [guarded] at h
  | some q => exact ⟨by simp, by simpa [guarded] using h⟩

/-- What a player move that was executed went through. -/
theorem playerMove_some (b b1 : Board) (loc : Coord) (direction : String) (sel : Cell)
    (mv : Move) (h : b.playerMove loc direction = some (some (b1, sel, mv))) :
    b.GetPiece loc = some sel ∧ mv.previous = loc ∧
      ((mv.direction = "left" ∧ mv.next = (loc.1 - 1, loc.2 - 1) ∧
          (b.cells sel).left ≠ none) ∨
        (mv.direction = "right" ∧ mv.next = (loc.1 - 1, loc.2 + 1) ∧
          (b.cells sel).right ≠ none)) ∧
      b.isValid mv.next (b.owner sel) mv.direction = some true ∧
      b.MovePiece loc mv.next mv.direction = some (b1, mv.result) := by
  unfold playerMove at h
  cases hg : b.GetPiece loc with
  | none => rw [hg] at h; cases h
  | some s =>
    rw [hg] at h
    simp only at h
    cases h0 : b.guarded (b.cells s).left (loc.1 - 1, loc.2 - 1) (b.owner s) "left" with
    | none => rw [h0] at h; cases h
    | some m0 =>
      cases h1 : b.guarded (b.cells s).right (loc.1 - 1, loc.2 + 1) (b.owner s) "right" with
      | none => rw [h0, h1] at h; cases h
      | some m1 =>
        rw [h0, h1] at h
        simp only at h
        by_cases hl : directionKey direction = 'l' ∧ m0 = true
        · rw [if_pos hl] at h
          cases hm : b.MovePiece loc (loc.1 - 1, loc.2 - 1) "left" with
          | none => rw [hm] at h; cases h
          | some r =>
            obtain ⟨b2, res⟩ := r
            rw [hm] at h
            simp only [Option.some.injEq, Prod.mk.injEq] at h
            obtain ⟨hb, hs, hmv⟩ := h
            subst hb; subst hs; subst hmv
            rw [hl.2] at h0
            obtain ⟨hp, hv⟩ := guarded_true _ _ _ _ _ h0
            exact ⟨rfl, rfl, Or.inl ⟨rfl, rfl, hp⟩, hv, hm⟩
        · rw [if_neg hl] at h
          by_cases hr : directionKey direction = 'r' ∧ m1 = true
          · rw [if_pos hr] at h
            cases hm : b.MovePiece loc (loc.1 - 1, loc.2 + 1) "right" with
            | none => rw [hm] at h; cases h
            | some r =>
              obtain ⟨b2, res⟩ := r
              rw [hm] at h
              simp only [Option.some.injEq, Prod.mk.injEq] at h
              obtain ⟨hb, hs, hmv⟩ := h
              subst hb; subst hs; subst hmv
              rw [hr.2] at h1
              obtain ⟨hp, hv⟩ := guarded_true _ _ _ _ _ h1
              exact ⟨rfl, rfl, Or.inr ⟨rfl, rfl, hp⟩, hv, hm⟩
          · rw [if_neg hr] at h
            cases h

/-- What the computer's loop did when it returns: nothing, or exactly one left move of a
piece of its index that it still owns. -/
theorem computerLoop_some (b : Board) (sel : Cell) :
    ∀ (n : Nat) (b2 : Board) (mvs : List Move), b.computerLoop sel n = some (b2, mvs) →
      (b2 = b ∧ mvs = []) ∨
        ∃ i comp b1 r, 0 < i ∧ i ≤ n ∧ b.computerPieces.get? i = some comp ∧
          b.owner comp = 1 ∧ (b.cells comp).left ≠ none ∧
          b.isValid ((b.cells comp).position.1 + 1, (b.cells comp).position.2 - 1) 1 "left"
            = some true ∧
          b.MovePiece (b.cells comp).position
            ((b.cells comp).position.1 + 1, (b.cells comp).position.2 - 1) "left"
            = some (b1, r) ∧
          b2 = { b1 with computerPieces := b1.computerPieces.set i r } ∧
          mvs = [{ previous := (b.cells comp).position,
                   next := ((b.cells comp).position.1 + 1, (b.cells comp).position.2 - 1),
                   direction := "left", result := r }]
  | 0, b2, mvs, h => by
    simp only [computerLoop, Option.some.injEq, Prod.mk.injEq] at h
    exact Or.inl ⟨h.1.symm, h.2.symm⟩
  | n + 1, b2, mvs, h => by
    have widen : ((b2 = b ∧ mvs = []) ∨
        ∃ i comp b1 r, 0 < i ∧ i ≤ n ∧ b.computerPieces.get? i = some comp ∧
          b.owner comp = 1 ∧ (b.cells comp).left ≠ none ∧
          b.isValid ((b.cells comp).position.1 + 1, (b.cells comp).position.2 - 1) 1 "left"
            = some true ∧
          b.MovePiece (b.cells comp).position
            ((b.cells comp).position.1 + 1, (b.cells comp).position.2 - 1) "left"
            = some (b1, r) ∧
          b2 = { b1 with computerPieces := b1.computerPieces.set i r } ∧
          mvs = [{ previous := (b.cells comp).position,
                   next := ((b.cells comp).position.1 + 1, (b.cells comp).position.2 - 1),
                   direction := "left", result := r }]) →
        ((b2 = b ∧ mvs = []) ∨
        ∃ i comp b1 r, 0 < i ∧ i ≤ n + 1 ∧ b.computerPieces.get? i = some comp ∧
          b.owner comp = 1 ∧ (b.cells comp).left ≠ none ∧
          b.isValid ((b.cells comp).position.1 + 1, (b.cells comp).position.2 - 1) 1 "left"
            = some true ∧
          b.MovePiece (b.cells comp).position
            ((b.cells comp).position.1 + 1, (b.cells comp).position.2 - 1) "left"
            = some (b1, r) ∧
          b2 = { b1 with computerPieces := b1.computerPieces.set i r } ∧
          mvs = [{ previous := (b.cells comp).position,
                   next := ((b.cells comp).position.1 + 1, (b.cells comp).position.2 - 1),
                   direction := "left", result := r }]) := by
      rintro (h | ⟨i, comp, b1, r, h1, h2, rest⟩)
      · exact Or.inl h
      · exact Or.inr ⟨i, comp, b1, r, h1, Nat.le_succ_of_le h2, rest⟩
    rw [computerLoop] at h
    cases hc : b.computerPieces.get? (n + 1) with
    | none => rw [hc] at h; cases h
    | some comp =>
      rw [hc] at h
      simp only at h
      by_cases ho : b.owner comp ≠ 1
      · rw [if_pos ho] at h
        exact widen (computerLoop_some b sel n b2 mvs h)
      · rw [if_neg ho] at h
        have ho1 : b.owner comp = 1 := by
          by_contra hne; exact ho hne
        cases h0 : b.guarded (b.cells comp).left
            ((b.cells comp).position.1 + 1, (b.cells comp).position.2 - 1)
            (b.owner comp) "left" with
        | none => rw [h0] at h; cases h
        | some m0 =>
          cases h1 : b.guarded (b.cells sel).right
              ((b.cells comp).position.1 + 1, (b.cells comp).position.2 + 1)
              (b.owner comp) "right" with
          | none => rw [h0, h1] at h; cases h
          | some m1 =>
            rw [h0, h1] at h
            simp only at h
            by_cases hm0 : m0 = true
            · rw [if_pos hm0] at h
              cases hm : b.MovePiece (b.cells comp).position
                  ((b.cells comp).position.1 + 1, (b.cells comp).position.2 - 1) "left" with
              | none => rw [hm] at h; cases h
              | some res =>
                obtain ⟨b1, r⟩ := res
                rw [hm] at h
                simp only [Option.some.injEq, Prod.mk.injEq] at h
                rw [hm0, ho1] at h0
                obtain ⟨hp, hv⟩ := guarded_true _ _ _ _ _ h0
                exact Or.inr ⟨n + 1, comp, b1, r, Nat.succ_pos n, Nat.le_refl _, hc, ho1, hp,
                  hv, hm, h.1.symm, h.2.symm⟩
            · rw [if_neg hm0] at h
              exact widen (computerLoop_some b sel n b2 mvs h)

/-- What an iteration of the loop did when it returns. -/
theorem loopBody_some (b b2 : Board) (input direction : String) (mvs : List Move)
    (h : b.loopBody input direction = some (b2, mvs)) :
    (b2 = b ∧ mvs = []) ∨
      ∃ b1 sel mv mvs1, b.CheckOwner (CheckInput input) (-1) = true ∧
        b.playerMove (CheckInput input) direction = some (some (b1, sel, mv)) ∧
        b1.computerTurn sel = some (b2, mvs1) ∧ mvs = mv :: mvs1 := by
  unfold loopBody at h
  simp only at h
  by_cases hc : b.CheckOwner (CheckInput input) (-1) = true
  · rw [if_pos hc] at h
    cases hp : b.playerMove (CheckInput input) direction with
    | none => rw [hp] at h; cases h
    | some o =>
      cases o with
      | none =>
        rw [hp] at h
        simp only [Option.some.injEq, Prod.mk.injEq] at h
        exact Or.inl ⟨h.1.symm, h.2.symm⟩
      | some r =>
        obtain ⟨b1, sel, mv⟩ := r
        rw [hp] at h
        simp only at h
        cases ht : b1.computerTurn sel with
        | none => rw [ht] at h; cases h
        | some r2 =>
          obtain ⟨b3, mvs1⟩ := r2
          rw [ht] at h
          simp only [Option.some.injEq, Prod.mk.injEq] at h
          exact Or.inr ⟨b1, sel, mv, mvs1, hc, rfl, by rw [← h.1, ht], h.2.symm⟩
  · rw [if_neg hc] at h
    simp only [Option.some.injEq, Prod.mk.injEq] at h
    exact Or.inl ⟨h.1.symm, h.2.symm⟩

/-! ## The piece count never grows -/

/-- Case analysis of a `MovePiece` call that returns. -/
theorem MovePiece_cases (b b1 : Board) (previous nxt : Coord) (direction : String) (r : Cell)
    (hm : b.MovePiece previous nxt direction = some (b1, r)) :
    ∃ p1 p2, toCell previous = some p1 ∧ toCell nxt = some p2 ∧
      b1.computerPieces = b.computerPieces ∧
      ((b.owner p1 ≠ b.owner p2 * -1 ∧ r = p2 ∧
          ∀ q, b1.owner q = if q = p1 then 0 else if q = p2 then b.owner p1 else b.owner q) ∨
        (b.owner p1 = b.owner p2 * -1 ∧ b.landing p1 nxt direction = some r ∧
          ∀ q, b1.owner q =
            if q = p1 then 0 else if q = p2 then 0 else if q = r then b.owner p1
            else b.owner q)) := by
  cases h1 : toCell previous with
  | none => simp [MovePiece, h1] at hm
  | some p1 =>
    cases h2 : toCell nxt with
    | none => simp [MovePiece, h1, h2] at hm
    | some p2 =>
      refine ⟨p1, p2, rfl, rfl, ?_⟩
      by_cases hj : b.owner p1 = b.owner p2 * -1
      · cases h3 : b.landing p1 nxt direction with
        | none =>
          rw [MovePiece_jump_none b previous nxt direction p1 p2 h1 h2 hj h3] at hm
          cases hm
        | some p3 =>
          obtain ⟨b2, hm2, hcp, hown⟩ :=
            MovePiece_jump_branch b previous nxt direction p1 p2 p3 h1 h2 hj h3
          rw [hm2] at hm
          simp only [Option.some.injEq, Prod.mk.injEq] at hm
          obtain ⟨hb, hr⟩ := hm
          subst hb; subst hr
          exact ⟨hcp, Or.inr ⟨hj, rfl, hown⟩⟩
      · obtain ⟨b2, hm2, hcp, hown⟩ :=
          MovePiece_simple_branch b previous nxt direction p1 p2 h1 h2 hj
        rw [hm2] at hm
        simp only [Option.some.injEq, Prod.mk.injEq] at hm
        obtain ⟨hb, hr⟩ := hm
        subst hb; subst hr
        exact ⟨hcp, Or.inl ⟨hj, rfl, hown⟩⟩

/-- A count of pieces (of cells whose owner satisfies a test that 0 fails) never grows
under `MovePiece`. -/
theorem MovePiece_countIf_le (P : Int → Bool) (hP : P 0 = false) (b b1 : Board)
    (previous nxt : Coord) (direction : String) (r : Cell)
    (hm : b.MovePiece previous nxt direction = some (b1, r)) :
    countIf P b1.owner ≤ countIf P b.owner := by
  obtain ⟨p1, p2, -, -, -, hcase⟩ := MovePiece_cases b b1 previous nxt direction r hm
  rcases hcase with ⟨hj, -, hown⟩ | ⟨hj, -, hown⟩
  · rw [owner_eq_updates_simple b b1 p1 p2 hown]
    have e2 := countIf_update P b.owner p2 (b.owner p1)
    have e1 := countIf_update P (Function.update b.owner p2 (b.owner p1)) p1 0
    have hv : Function.update b.owner p2 (b.owner p1) p1 = b.owner p1 := by
      by_cases h : p1 = p2
      · subst h; simp
      · simp [Function.update_noteq h]
    rw [hv] at e1
    simp only [hP, Bool.false_eq_true, if_false] at e1
    by_cases hp : P (b.owner p1) = true
    · simp only [hp, if_true] at e1 e2
      split at e2 <;> omega
    · simp only [hp, if_false] at e1 e2
      split at e2 <;> omega
  · rw [owner_eq_updates_jump b b1 p1 p2 r hown]
    have e3 := countIf_update P b.owner r (b.owner p1)
    have e2 := countIf_update P (Function.update b.owner r (b.owner p1)) p2 0
    have e1 := countIf_update P
      (Function.update (Function.update b.owner r (b.owner p1)) p2 0) p1 0
    simp only [hP, Bool.false_eq_true, if_false] at e1 e2
    by_cases hp : P (b.owner p1) = true
    · have h0 : b.owner p1 ≠ 0 := by
        intro h; rw [h, hP] at hp; cases hp
      have h12 : p1 ≠ p2 := by
        intro h; rw [h] at hj; rw [h] at h0; omega
      have hv : Function.update (Function.update b.owner r (b.owner p1)) p2 0 p1
          = b.owner p1 := by
        rw [Function.update_noteq h12]
        by_cases h : p1 = r
        · subst h; simp
        · simp [Function.update_noteq h]
      rw [hv] at e1
      simp only [hp, if_true] at e1 e3
      split at e2 <;> split at e3 <;> omega
    · simp only [hp, if_false] at e3
      simp only [Bool.false_eq_true, if_false] at e3
      split at e1 <;> split at e2 <;> split at e3 <;> omega

/-- The first half of the piece-count claim: whenever `MovePiece` returns, the number of
occupied cells and each player's number of pieces are at most what they were. -/
theorem MovePiece_count_le (b b1 : Board) (previous nxt : Coord) (direction : String)
    (r : Cell) (hm : b.MovePiece previous nxt direction = some (b1, r)) :
    b1.countOccupied ≤ b.countOccupied ∧ b1.countOwner (-1) ≤ b.countOwner (-1) ∧
      b1.countOwner 1 ≤ b.countOwner 1 := by
  refine ⟨?_, ?_, ?_⟩
  · rw [countOccupied_eq, countOccupied_eq]
    exact MovePiece_countIf_le isOccupied rfl b b1 previous nxt direction r hm
  · rw [countOwner_eq, countOwner_eq]
    exact MovePiece_countIf_le (isOwner (-1)) (by decide) b b1 previous nxt direction r hm
  · rw [countOwner_eq, countOwner_eq]
    exact MovePiece_countIf_le (isOwner 1) (by decide) b b1 previous nxt direction r hm

/-- A count of pieces never grows over one iteration of the game loop. -/
theorem loopBody_countIf_le (P : Int → Bool) (hP : P 0 = false) (b b2 : Board)
    (input direction : String) (mvs : List Move)
    (h : b.loopBody input direction = some (b2, mvs)) :
    countIf P b2.owner ≤ countIf P b.owner := by
  rcases loopBody_some b b2 input direction mvs h with ⟨hb, -⟩ | ⟨b1, sel, mv, mvs1, -, hp, ht, -⟩
  · rw [hb]
  · obtain ⟨-, -, -, -, hm⟩ := playerMove_some b b1 _ direction sel mv hp
    have hle1 := MovePiece_countIf_le P hP b b1 _ _ _ _ hm
    unfold computerTurn at ht
    rcases computerLoop_some b1 sel _ b2 mvs1 ht with
      ⟨hb, -⟩ | ⟨i, comp, b3, r, -, -, -, -, -, -, hm2, hb2, -⟩
    · rw [hb]; exact hle1
    · have hle2 := MovePiece_countIf_le P hP b1 b3 _ _ _ _ hm2
      have ho : b2.owner = b3.owner := by rw [hb2]; rfl
      rw [ho]
      exact Nat.le_trans hle2 hle1

set_option maxRecDepth 100000 in
/-- No reachable board has more occupied cells than the constructed board, which has 25. -/
theorem reachable_countOccupied_le (b : Board) (hr : Reachable b) : b.countOccupied ≤ 25 := by
  induction hr with
  | start => decide
  | step b b1 input direction mvs _ h ih =>
    have hle := loopBody_countIf_le isOccupied rfl b b1 input direction mvs h
    rw [← countOccupied_eq, ← countOccupied_eq] at hle
    exact Nat.le_trans hle ih

set_option maxRecDepth 100000 in
/-- C9 (the code departs from the claim): the bound of 24 occupied cells fails in the very
first reachable state.  The constructed board holds 25 pieces (12 of player 1 and 13 of
player 2, the thirteenth being the jump-test piece on (4,3)). -/
theorem reachable_count_exceeds_24 :
    Reachable construct ∧ construct.countOccupied = 25 ∧ construct.countOwner (-1) = 12 ∧
      construct.countOwner 1 = 13 ∧ ¬ construct.countOccupied ≤ 24 :=
  ⟨Reachable.start, by decide, by decide, by decide, by decide⟩

@[simp] theorem position_setOwner (b : Board) (p q : Cell) (v : Int) :
    ((b.setOwner p v).cells q).position = (b.cells q).position := by
  unfold setOwner
  by_cases h : q = p
  · subst h; simp
  · simp [Function.update_noteq h]

@[simp] theorem position_setLeft (b : Board) (p q : Cell) (x : Option Cell) :
    ((b.setLeft p x).cells q).position = (b.cells q).position := by
  unfold setLeft
  by_cases h : q = p
  · subst h; simp
  · simp [Function.update_noteq h]

@[simp] theorem position_setRight (b : Board) (p q : Cell) (x : Option Cell) :
    ((b.setRight p x).cells q).position = (b.cells q).position := by
  unfold setRight
  by_cases h : q = p
  · subst h; simp
  · simp [Function.update_noteq h]

@[simp] theorem position_vacate (b : Board) (p q : Cell) :
    ((b.vacate p).cells q).position = (b.cells q).position := by
  simp [vacate]

@[simp] theorem position_ite_setLeft (b : Board) (c : Prop) [Decidable c] (p q : Cell)
    (x : Option Cell) :
    ((if c then b.setLeft p x else b).cells q).position = (b.cells q).position := by
  split <;> simp

@[simp] theorem position_ite_setRight (b : Board) (c : Prop) [Decidable c] (p q : Cell)
    (x : Option Cell) :
    ((if c then b.setRight p x else b).cells q).position = (b.cells q).position := by
  split <;> simp

/-- The `position` fields are never written by `MovePiece`. -/
theorem MovePiece_position (b b1 : Board) (previous nxt : Coord) (direction : String)
    (r : Cell) (hm : b.MovePiece previous nxt direction = some (b1, r)) (q : Cell) :
    (b1.cells q).position = (b.cells q).position := by
  unfold MovePiece at hm
  cases h1 : toCell previous with
  | none => simp [h1] at hm
  | some p1 =>
    cases h2 : toCell nxt with
    | none => simp [h1, h2] at hm
    | some p2 =>
      simp only [h1, h2] at hm
      split at hm
      · split at hm
        · cases hm
        · simp only [Option.some.injEq, Prod.mk.injEq] at hm
          rw [← hm.1]
          simp
      · simp only [Option.some.injEq, Prod.mk.injEq] at hm
        rw [← hm.1]
        simp

theorem positionsValid_MovePiece (b b1 : Board) (previous nxt : Coord) (direction : String)
    (r : Cell) (hv : b.positionsValid)
    (hm : b.MovePiece previous nxt direction = some (b1, r)) : b1.positionsValid := by
  intro q
  rw [MovePiece_position b b1 previous nxt direction r hm q]
  exact hv q

theorem positionsValid_loopBody (b b2 : Board) (input direction : String) (mvs : List Move)
    (hv : b.positionsValid) (h : b.loopBody input direction = some (b2, mvs)) :
    b2.positionsValid := by
  rcases loopBody_some b b2 input direction mvs h with ⟨hb, -⟩ | ⟨b1, sel, mv, mvs1, -, hp, ht, -⟩
  · rw [hb]; exact hv
  · obtain ⟨-, -, -, -, hm⟩ := playerMove_some b b1 _ direction sel mv hp
    have hv1 := positionsValid_MovePiece b b1 _ _ _ _ hv hm
    unfold computerTurn at ht
    rcases computerLoop_some b1 sel _ b2 mvs1 ht with
      ⟨hb, -⟩ | ⟨i, comp, b3, r, -, -, -, -, -, -, hm2, hb2, -⟩
    · rw [hb]; exact hv1
    · have hv3 := positionsValid_MovePiece b1 b3 _ _ _ _ hv1 hm2
      rw [hb2]
      exact hv3

set_option maxRecDepth 100000 in
theorem positionsValid_construct : construct.positionsValid := by decide

theorem reachable_positionsValid (b : Board) (hr : Reachable b) : b.positionsValid := by
  induction hr with
  | start => exact positionsValid_construct
  | step b b1 input direction mvs _ h ih =>
    exact positionsValid_loopBody b b1 input direction mvs ih h

/-! ## Forward-only movement -/

theorem landing_some (b : Board) (p1 r : Cell) (nxt : Coord) (d : String)
    (h : b.landing p1 nxt d = some r) :
    (d = "left" ∧ r.coord = (nxt.1 + b.owner p1, nxt.2 - 1)) ∨
      (d = "right" ∧ r.coord = (nxt.1 + b.owner p1, nxt.2 + 1)) := by
  unfold landing at h
  by_cases hl : d = "left"
  · rw [if_pos hl] at h
    exact Or.inl ⟨hl, (toCell_eq_some_iff _ _).mp h⟩
  · rw [if_neg hl] at h
    by_cases hr : d = "right"
    · rw [if_pos hr] at h
      exact Or.inr ⟨hr, (toCell_eq_some_iff _ _).mp h⟩
    · rw [if_neg hr] at h
      cases h

theorem coord_injective (p q : Cell) (h : p.coord = q.coord) : p = q := by
  have hp := toCell_coord p
  rw [h, toCell_coord q] at hp
  injection hp with hp
  exact hp.symm

/-- A forward call of `MovePiece`: the piece of owner `p` on `prev` is sent to the next row
in its direction, one column to the side matching the direction string.  It ends there, or
two rows and two columns away with `nxt` as the midpoint. -/
theorem MovePiece_forward (b b1 : Board) (prev nxt : Coord) (d : String) (r : Cell) (p : Int)
    (hp : p = -1 ∨ p = 1) (hown : b.ownerAt prev = some p) (hrow : nxt.1 = prev.1 + p)
    (hcol : (d = "left" ∧ nxt.2 = prev.2 - 1) ∨ (d = "right" ∧ nxt.2 = prev.2 + 1))
    (hm : b.MovePiece prev nxt d = some (b1, r)) :
    Move.forwardFor p { previous := prev, next := nxt, direction := d, result := r } ∧
      b1.owner r = p := by
  obtain ⟨p1, p2, h1, h2, -, hcase⟩ := MovePiece_cases b b1 prev nxt d r hm
  have ho1 : b.owner p1 = p := by
    rw [ownerAt_eq, h1] at hown; simpa using hown
  have hc1 : p1.coord = prev := (toCell_eq_some_iff _ _).mp h1
  have hc2 : p2.coord = nxt := (toCell_eq_some_iff _ _).mp h2
  have hlr : ¬ ("right" : String) = "left" := by decide
  rcases hcase with ⟨-, hr, hown1⟩ | ⟨-, hland, hown1⟩
  · subst hr
    have hne : r ≠ p1 := by
      intro h
      have : nxt.1 = prev.1 := by rw [← hc1, ← hc2, h]
      omega
    refine ⟨Or.inl ⟨hc2, hrow, ?_⟩, ?_⟩
    · rcases hcol with ⟨-, h⟩ | ⟨-, h⟩
      · exact Or.inl h
      · exact Or.inr h
    · rw [hown1 r]; simp [hne, ho1]
  · have hgeo : r.coord.1 = prev.1 + 2 * p ∧
        ((d = "left" ∧ r.coord.2 = prev.2 - 2) ∨ (d = "right" ∧ r.coord.2 = prev.2 + 2)) := by
      rcases landing_some b p1 r nxt d hland with ⟨hd, hc⟩ | ⟨hd, hc⟩
      · rcases hcol with ⟨-, h⟩ | ⟨hd2, -⟩
        · rw [hc, ho1]
          exact ⟨by simp only; omega, Or.inl ⟨hd, by simp only; omega⟩⟩
        · rw [hd] at hd2; exact absurd hd2.symm hlr
      · rcases hcol with ⟨hd2, -⟩ | ⟨-, h⟩
        · rw [hd] at hd2; exact absurd hd2 hlr
        · rw [hc, ho1]
          exact ⟨by simp only; omega, Or.inr ⟨hd, by simp only; omega⟩⟩
    have hne1 : r ≠ p1 := by
      intro h
      have : r.coord.1 = prev.1 := by rw [h, hc1]
      omega
    have hne2 : r ≠ p2 := by
      intro h
      have : r.coord.1 = nxt.1 := by rw [h, hc2]
      omega
    refine ⟨Or.inr ⟨hgeo.1, ?_, ?_, ?_⟩, ?_⟩
    · rcases hgeo.2 with ⟨-, h⟩ | ⟨-, h⟩
      · exact Or.inl h
      · exact Or.inr h
    · simp only; omega
    · simp only
      rcases hgeo.2 with ⟨hd, h⟩ | ⟨hd, h⟩
      · rcases hcol with ⟨-, h2⟩ | ⟨hd2, -⟩
        · omega
        · rw [hd] at hd2; exact absurd hd2.symm hlr
      · rcases hcol with ⟨hd2, -⟩ | ⟨-, h2⟩
        · rw [hd] at hd2; exact absurd hd2 hlr
        · omega
    · rw [hown1 r]; simp [hne1, hne2, ho1]

theorem CheckOwner_true (b : Board) (loc : Coord) (p : Int) (h : b.CheckOwner loc p = true) :
    b.ownerAt loc = some p := by
  unfold CheckOwner at h
  split at h
  · cases h
  · rw [ownerAt_eq]
    cases hc : toCell loc with
    | none => rw [hc] at h; cases h
    | some q =>
      rw [hc] at h
      simp only at h
      split at h
      · rename_i ho; simp [ho]
      · cases h

/-- C10: forward-only movement.  In an iteration of the game loop on a reachable board,
either no move is executed, or the player's call of `MovePiece` moves a player-1 piece
(owner -1) from `(r, c)` to `(r-1, c±1)` (simple move) or to `(r-2, c±2)` with the cell
jumped over as midpoint (jump), and the computer's call, when there is one, moves a
player-2 piece (owner 1) from `(r, c)` to `(r+1, c±1)` or `(r+2, c±2)` in the same way.  The
moved piece stands on the returned cell after the call. -/
theorem loopBody_moves_forward (b : Board) (hr : Reachable b) (input direction : String)
    (b2 : Board) (mvs : List Move) (h : b.loopBody input direction = some (b2, mvs)) :
    mvs = [] ∨
      ∃ pm b1, b.ownerAt pm.previous = some (-1) ∧
        b.MovePiece pm.previous pm.next pm.direction = some (b1, pm.result) ∧
        pm.forwardFor (-1) ∧ b1.owner pm.result = -1 ∧
        (mvs = [pm] ∨
          ∃ cm b3, mvs = [pm, cm] ∧ b1.ownerAt cm.previous = some 1 ∧
            b1.MovePiece cm.previous cm.next cm.direction = some (b3, cm.result) ∧
            cm.forwardFor 1 ∧ b3.owner cm.result = 1) := by
  rcases loopBody_some b b2 input direction mvs h with
    ⟨-, hm⟩ | ⟨b1, sel, mv, mvs1, hc, hp, ht, hmvs⟩
  · exact Or.inl hm
  · right
    have hown := CheckOwner_true b _ _ hc
    obtain ⟨-, hprev, hdir, -, hm⟩ := playerMove_some b b1 _ direction sel mv hp
    obtain ⟨prev, nxt, d, res⟩ := mv
    simp only at hprev hdir hm
    subst hprev
    have hpf := MovePiece_forward b b1 (CheckInput input) nxt d res (-1) (Or.inl rfl) hown
      (by rcases hdir with ⟨-, h, -⟩ | ⟨-, h, -⟩ <;> rw [h] <;> simp only <;> omega)
      (by
        rcases hdir with ⟨hd, h, -⟩ | ⟨hd, h, -⟩
        · exact Or.inl ⟨hd, by rw [h]⟩
        · exact Or.inr ⟨hd, by rw [h]⟩)
      hm
    refine ⟨{ previous := CheckInput input, next := nxt, direction := d, result := res },
      b1, hown, hm, hpf.1, hpf.2, ?_⟩
    have hv1 : b1.positionsValid :=
      positionsValid_MovePiece b b1 _ _ _ _ (reachable_positionsValid b hr) hm
    unfold computerTurn at ht
    rcases computerLoop_some b1 sel _ b2 mvs1 ht with
      ⟨-, hnil⟩ | ⟨i, comp, b3, r, -, -, -, hoc, -, -, hm2, -, hmv⟩
    · left; rw [hmvs, hnil]
    · right
      have hpos : (b1.cells comp).position = comp.coord := hv1 comp
      rw [hpos] at hm2 hmv
      have hown2 : b1.ownerAt comp.coord = some 1 := by rw [ownerAt_coord, hoc]
      have hcf := MovePiece_forward b1 b3 comp.coord (comp.coord.1 + 1, comp.coord.2 - 1)
        "left" r 1 (Or.inr rfl) hown2 rfl (Or.inl ⟨rfl, rfl⟩) hm2
      exact ⟨⟨comp.coord, (comp.coord.1 + 1, comp.coord.2 - 1), "left", r⟩, b3,
        by rw [hmvs, hmv], hown2, hm2, hcf.1, hcf.2⟩

set_option maxRecDepth 100000 in
/-- Witness for C10: on the constructed board the player selects (5,2) ("36") and types
"r"; the iteration returns, it executes the jump from (5,2) over (4,3) to (3,4) and the
computer's step from (2,7) to (3,6), and both are forward moves. -/
theorem loopBody_moves_forward_witness :
    ∃ b2 mvs, construct.loopBody "36" "r" = some (b2, mvs) ∧
      mvs = [{ previous := (5, 2), next := (4, 3), direction := "right", result := (3, 4) },
             { previous := (2, 7), next := (3, 6), direction := "left", result := (3, 6) }] ∧
      (mvs = [] ∨
        ∃ pm b1, construct.ownerAt pm.previous = some (-1) ∧
          construct.MovePiece pm.previous pm.next pm.direction = some (b1, pm.result) ∧
          pm.forwardFor (-1) ∧ b1.owner pm.result = -1 ∧
          (mvs = [pm] ∨
            ∃ cm b3, mvs = [pm, cm] ∧ b1.ownerAt cm.previous = some 1 ∧
              b1.MovePiece cm.previous cm.next cm.direction = some (b3, cm.result) ∧
              cm.forwardFor 1 ∧ b3.owner cm.result = 1)) := by
  have hs : (construct.loopBody "36" "r").map Prod.snd =
      some [{ previous := (5, 2), next := (4, 3), direction := "right", result := (3, 4) },
            { previous := (2, 7), next := (3, 6), direction := "left", result := (3, 6) }] := by
    decide
  cases h : construct.loopBody "36" "r" with
  | none => rw [h] at hs; cases hs
  | some x =>
    obtain ⟨b2, mvs⟩ := x
    rw [h] at hs
    simp only [Option.map_some', Option.some.injEq] at hs
    exact ⟨b2, mvs, rfl, hs,
      loopBody_moves_forward construct Reachable.start "36" "r" b2 mvs h⟩

/-! ## Queries and input translation -/

theorem ownersValid_loopBody (b b2 : Board) (input direction : String) (mvs : List Move)
    (hv : b.ownersValid) (h : b.loopBody input direction = some (b2, mvs)) :
    b2.ownersValid := by
  rcases loopBody_some b b2 input direction mvs h with ⟨hb, -⟩ | ⟨b1, sel, mv, mvs1, -, hp, ht, -⟩
  · rw [hb]; exact hv
  · obtain ⟨-, -, -, -, hm⟩ := playerMove_some b b1 _ direction sel mv hp
    have hv1 := ownersValid_MovePiece b b1 _ _ _ _ hv hm
    unfold computerTurn at ht
    rcases computerLoop_some b1 sel _ b2 mvs1 ht with
      ⟨hb, -⟩ | ⟨i, comp, b3, r, -, -, -, -, -, -, hm2, hb2, -⟩
    · rw [hb]; exact hv1
    · have hv3 := ownersValid_MovePiece b1 b3 _ _ _ _ hv1 hm2
      rw [hb2]
      exact hv3

theorem reachable_ownersValid (b : Board) (hr : Reachable b) : b.ownersValid := by
  induction hr with
  | start => exact ownersValid_construct
  | step b b1 input direction mvs _ h ih =>
    exact ownersValid_loopBody b b1 input direction mvs ih h

/-- C12: the occupancy query.  On every reachable board and for all integers `r`, `c`,
`GetPiece((r, c))` is null exactly when `r` or `c` lies outside 0..7; the grid is indexed
only under `CheckBounds`, where the index is inside the grid; and a non-null result is the
cell stored at `board[r][c]`, whose `position` is `(r, c)` and whose owner is 0, -1 or 1. -/
theorem GetPiece_spec (b : Board) (hr : Reachable b) (r c : Int) :
    (b.GetPiece (r, c) = none ↔ ¬ ((0 ≤ r ∧ r ≤ 7) ∧ (0 ≤ c ∧ c ≤ 7))) ∧
      (CheckBounds (r, c) = true → ∃ p, toCell (r, c) = some p) ∧
      ∀ p, b.GetPiece (r, c) = some p →
        p.coord = (r, c) ∧ (b.cells p).position = (r, c) ∧
          (b.owner p = 0 ∨ b.owner p = -1 ∨ b.owner p = 1) := by
  refine ⟨?_, ?_, ?_⟩
  · rw [GetPiece_eq_toCell]
    by_cases hb : CheckBounds (r, c) = true
    · obtain ⟨p, hp, -⟩ := toCell_isSome_of_CheckBounds (r, c) hb
      have hin := (CheckBounds_iff (r, c)).mp hb
      simp only [hp]
      constructor
      · intro h; cases h
      · intro h; exact absurd hin h
    · rw [toCell_eq_none_of_not_CheckBounds (r, c) hb]
      constructor
      · intro _ hin
        exact hb ((CheckBounds_iff (r, c)).mpr hin)
      · intro _; rfl
  · intro hb
    obtain ⟨p, hp, -⟩ := toCell_isSome_of_CheckBounds (r, c) hb
    exact ⟨p, hp⟩
  · intro p hp
    rw [GetPiece_eq_toCell, toCell_eq_some_iff] at hp
    refine ⟨hp, ?_, reachable_ownersValid b hr p⟩
    rw [reachable_positionsValid b hr p, hp]

set_option maxRecDepth 100000 in
/-- Witness for C12: the query at (4,3) on the constructed board. -/
theorem GetPiece_spec_witness :
    (construct.GetPiece (4, 3) = none ↔ ¬ ((0 ≤ (4 : Int) ∧ (4 : Int) ≤ 7) ∧
        (0 ≤ (3 : Int) ∧ (3 : Int) ≤ 7))) ∧
      (CheckBounds (4, 3) = true → ∃ p, toCell (4, 3) = some p) ∧
      ∀ p, construct.GetPiece (4, 3) = some p →
        p.coord = (4, 3) ∧ (construct.cells p).position = (4, 3) ∧
          (construct.owner p = 0 ∨ construct.owner p = -1 ∨ construct.owner p = 1) :=
  GetPiece_spec construct Reachable.start 4 3

/-- C13: the bounds check.  For all integers `r` and `c`, `CheckBounds((r, c))` is true
exactly when `0 <= r <= 7` and `0 <= c <= 7`.  It is a total function of the pair alone: it
takes no board and returns no board. -/
theorem CheckBounds_spec (r c : Int) :
    CheckBounds (r, c) = true ↔ (0 ≤ r ∧ r ≤ 7 ∧ 0 ≤ c ∧ c ≤ 7) := by
  unfold CheckBounds
  simp only
  by_cases h1 : r < 0 ∨ r > 7
  · rw [if_pos h1]
    constructor
    · intro h; cases h
    · intro h; omega
  · rw [if_neg h1]
    by_cases h2 : c < 0 ∨ c > 7
    · rw [if_pos h2]
      constructor
      · intro h; cases h
      · intro h; omega
    · rw [if_neg h2]
      constructor
      · intro _; omega
      · intro _; rfl

/-- C19: input translation.  When the first two characters of the input are digits `x` and
`y` (character codes 48..57, digit values `x - 48` and `y - 48`), `CheckInput` returns the
pair (row, col) = (digit of `y` - 1, digit of `x` - 1); the result passes `CheckBounds`
exactly when both digits are in 1..8, so it fails for a digit 0 or 9. -/
theorem CheckInput_digits (x y : Char) (rest : List Char)
    (hx : 48 ≤ x.toNat ∧ x.toNat ≤ 57) (hy : 48 ≤ y.toNat ∧ y.toNat ≤ 57) :
    CheckInput (String.mk (x :: y :: rest)) =
        (((y.toNat : Int) - 48) - 1, ((x.toNat : Int) - 48) - 1) ∧
      (CheckBounds (CheckInput (String.mk (x :: y :: rest))) = true ↔
        ((1 ≤ (x.toNat : Int) - 48 ∧ (x.toNat : Int) - 48 ≤ 8) ∧
          (1 ≤ (y.toNat : Int) - 48 ∧ (y.toNat : Int) - 48 ≤ 8))) := by
  have he : CheckInput (String.mk (x :: y :: rest)) =
      (((y.toNat : Int) - 48) - 1, ((x.toNat : Int) - 48) - 1) := by
    simp [CheckInput, List.getD]
  refine ⟨he, ?_⟩
  rw [he, CheckBounds_iff]
  simp only
  omega

/-- Witness for C19: the input "36" (digits 3 and 6) selects row 5, column 2. -/
theorem CheckInput_digits_witness :
    CheckInput (String.mk ('3' :: '6' :: [])) =
        (((('6' : Char).toNat : Int) - 48) - 1, ((('3' : Char).toNat : Int) - 48) - 1) ∧
      (CheckBounds (CheckInput (String.mk ('3' :: '6' :: []))) = true ↔
        ((1 ≤ (('3' : Char).toNat : Int) - 48 ∧ (('3' : Char).toNat : Int) - 48 ≤ 8) ∧
          (1 ≤ (('6' : Char).toNat : Int) - 48 ∧ (('6' : Char).toNat : Int) - 48 ≤ 8))) :=
  CheckInput_digits '3' '6' [] (by decide) (by decide)

/-! ## The calls the game loop makes, and the dark-square invariant -/

/-- The calls of `MovePiece` an iteration of the game loop makes: none, or the player's
call alone, or the player's call followed by the computer's call for some index entry. -/
theorem loopBody_calls (b b2 : Board) (input direction : String) (mvs : List Move)
    (hpos : b.positionsValid) (h : b.loopBody input direction = some (b2, mvs)) :
    (b2 = b ∧ mvs = []) ∨
      ∃ b1 sel nxt d r, toCell (CheckInput input) = some sel ∧
        b.loopCall (-1) (CheckInput input) nxt d b1 r ∧
        ((b2 = b1 ∧ mvs = [⟨CheckInput input, nxt, d, r⟩]) ∨
          ∃ i comp b3 r3, 0 < i ∧ b1.computerPieces.get? i = some comp ∧
            b1.owner comp = 1 ∧
            b1.loopCall 1 comp.coord (comp.coord.1 + 1, comp.coord.2 - 1) "left" b3 r3 ∧
            b2 = { b3 with computerPieces := b3.computerPieces.set i r3 } ∧
            mvs = [⟨CheckInput input, nxt, d, r⟩,
              ⟨comp.coord, (comp.coord.1 + 1, comp.coord.2 - 1), "left", r3⟩]) := by
  rcases loopBody_some b b2 input direction mvs h with
    hn | ⟨b1, sel, mv, mvs1, hc, hp, ht, hmvs⟩
  · exact Or.inl hn
  · right
    have hown := CheckOwner_true b _ _ hc
    obtain ⟨hsel, hprev, hdir, hval, hm⟩ := playerMove_some b b1 _ direction sel mv hp
    obtain ⟨prev, nxt, d, res⟩ := mv
    simp only at hprev hdir hm hval
    subst hprev
    rw [GetPiece_eq_toCell] at hsel
    have hosel : b.owner sel = -1 := by
      rw [ownerAt_eq, hsel] at hown; simpa using hown
    rw [hosel] at hval
    have hcall : b.loopCall (-1) (CheckInput input) nxt d b1 res := by
      refine ⟨Or.inl rfl, hown, ?_, ?_, hval, hm⟩
      · rcases hdir with ⟨-, h, -⟩ | ⟨-, h, -⟩ <;> rw [h] <;> simp only <;> omega
      · rcases hdir with ⟨hd, h, -⟩ | ⟨hd, h, -⟩
        · exact Or.inl ⟨hd, by rw [h]⟩
        · exact Or.inr ⟨hd, by rw [h]⟩
    refine ⟨b1, sel, nxt, d, res, hsel, hcall, ?_⟩
    have hv1 : b1.positionsValid := positionsValid_MovePiece b b1 _ _ _ _ hpos hm
    unfold computerTurn at ht
    rcases computerLoop_some b1 sel _ b2 mvs1 ht with
      ⟨hb, hnil⟩ | ⟨i, comp, b3, r, hi, -, hget, hoc, -, hval2, hm2, hb2, hmv⟩
    · left; exact ⟨hb, by rw [hmvs, hnil]⟩
    · right
      have hposc : (b1.cells comp).position = comp.coord := hv1 comp
      rw [hposc] at hm2 hmv hval2
      have hown2 : b1.ownerAt comp.coord = some 1 := by rw [ownerAt_coord, hoc]
      exact ⟨i, comp, b3, r, hi, hget, hoc,
        ⟨Or.inr rfl, hown2, rfl, Or.inl ⟨rfl, rfl⟩, hval2, hm2⟩, hb2, by rw [hmvs, hmv]⟩

/-- An invariant of the grid that holds on the constructed board and survives every call
of `MovePiece` the game loop makes holds on every reachable board. -/
theorem reachable_invariant (Q : Board → Prop) (h0 : Q construct)
    (hcp : ∀ (b : Board) (l : List Cell), Q b → Q { b with computerPieces := l })
    (hstep : ∀ (b b1 : Board) (p : Int) (prev nxt : Coord) (d : String) (r : Cell),
      Q b → b.loopCall p prev nxt d b1 r → Q b1) :
    ∀ b, Reachable b → Q b := by
  intro b hr
  induction hr with
  | start => exact h0
  | step b b2 input direction mvs hrb h ih =>
    rcases loopBody_calls b b2 input direction mvs (reachable_positionsValid b hrb) h with
      ⟨hb, -⟩ | ⟨b1, sel, nxt, d, r, -, hcall, hrest⟩
    · rw [hb]; exact ih
    · have hq1 := hstep b b1 _ _ _ _ _ ih hcall
      rcases hrest with ⟨hb, -⟩ | ⟨i, comp, b3, r3, -, -, -, hcall2, hb2, -⟩
      · rw [hb]; exact hq1
      · rw [hb2]
        exact hcp b3 _ (hstep b1 b3 _ _ _ _ _ hq1 hcall2)

/-- After `MovePiece`, an occupied cell is the returned cell or was occupied before. -/
theorem MovePiece_owner_ne_zero (b b1 : Board) (previous nxt : Coord) (direction : String)
    (r : Cell) (hm : b.MovePiece previous nxt direction = some (b1, r)) (q : Cell)
    (hq : b1.owner q ≠ 0) : q = r ∨ b.owner q ≠ 0 := by
  obtain ⟨p1, p2, -, -, -, hcase⟩ := MovePiece_cases b b1 previous nxt direction r hm
  rcases hcase with ⟨-, hr, hown⟩ | ⟨-, -, hown⟩
  · rw [hown q] at hq
    by_cases h1 : q = p1
    · simp [h1] at hq
    · by_cases h2 : q = p2
      · left; rw [h2, hr]
      · right; simpa [h1, h2] using hq
  · rw [hown q] at hq
    by_cases h1 : q = p1
    · simp [h1] at hq
    · by_cases h2 : q = p2
      · simp [h1, h2] at hq
      · by_cases h3 : q = r
        · exact Or.inl h3
        · right; simpa [h1, h2, h3] using hq

theorem darkSquares_loopCall (b b1 : Board) (p : Int) (prev nxt : Coord) (d : String)
    (r : Cell) (hd : b.darkSquares) (hc : b.loopCall p prev nxt d b1 r) : b1.darkSquares := by
  obtain ⟨hp, hown, hrow, hcol, -, hm⟩ := hc
  obtain ⟨hfwd, -⟩ := MovePiece_forward b b1 prev nxt d r p hp hown hrow hcol hm
  obtain ⟨p1, h1, ho1⟩ := (ownerAt_eq_some_iff b prev p).mp hown
  have hc1 : p1.coord = prev := (toCell_eq_some_iff _ _).mp h1
  have hprev : (prev.1 + prev.2) % 2 = 1 := by
    rw [← hc1]
    apply hd p1
    rw [ho1]; omega
  intro q hq
  rcases MovePiece_owner_ne_zero b b1 prev nxt d r hm q hq with hqr | hqo
  · subst hqr
    simp only [Move.forwardFor] at hfwd
    rcases hfwd with ⟨h1, h2, h3⟩ | ⟨h1, h2, -, -⟩
    · rw [h1]; omega
    · omega
  · exact hd q hqo

set_option maxRecDepth 100000 in
theorem darkSquares_construct : construct.darkSquares := by decide

/-- C17: the dark-square invariant.  Every occupied cell `(r, c)` of the constructed board
has `r + c` odd, every call of `MovePiece` the game loop makes (a simple move to a
forward-diagonal cell or a jump landing two diagonal steps away) preserves this, and so in
every reachable board all occupied cells have `r + c` odd. -/
theorem reachable_darkSquares (b : Board) (hr : Reachable b) (c : Cell)
    (hc : b.owner c ≠ 0) : (c.coord.1 + c.coord.2) % 2 = 1 := by
  have h : b.darkSquares :=
    reachable_invariant darkSquares darkSquares_construct (fun _ _ hq => hq)
      (fun b b1 p prev nxt d r hq hcall => darkSquares_loopCall b b1 p prev nxt d r hq hcall)
      b hr
  exact h c hc

set_option maxRecDepth 100000 in
/-- Witness for C17: the jump-test piece on (4,3) of the constructed board stands on a dark
square. -/
theorem reachable_darkSquares_witness :
    construct.owner (4, 3) ≠ 0 ∧
      ((Cell.coord (4, 3)).1 + (Cell.coord (4, 3)).2) % 2 = 1 :=
  ⟨by decide, reachable_darkSquares construct Reachable.start (4, 3) (by decide)⟩

/-! ## The cached pointers -/

@[simp] theorem left_setOwner (b : Board) (p q : Cell) (v : Int) :
    ((b.setOwner p v).cells q).left = (b.cells q).left := by
  unfold setOwner
  by_cases h : q = p
  · subst h; simp
  · simp [Function.update_noteq h]

@[simp] theorem right_setOwner (b : Board) (p q : Cell) (v : Int) :
    ((b.setOwner p v).cells q).right = (b.cells q).right := by
  unfold setOwner
  by_cases h : q = p
  · subst h; simp
  · simp [Function.update_noteq h]

@[simp] theorem left_setLeft (b : Board) (p q : Cell) (x : Option Cell) :
    ((b.setLeft p x).cells q).left = if q = p then x else (b.cells q).left := by
  unfold setLeft
  by_cases h : q = p
  · subst h; simp
  · simp [Function.update_noteq h, h]

@[simp] theorem right_setLeft (b : Board) (p q : Cell) (x : Option Cell) :
    ((b.setLeft p x).cells q).right = (b.cells q).right := by
  unfold setLeft
  by_cases h : q = p
  · subst h; simp
  · simp [Function.update_noteq h]

@[simp] theorem left_setRight (b : Board) (p q : Cell) (x : Option Cell) :
    ((b.setRight p x).cells q).left = (b.cells q).left := by
  unfold setRight
  by_cases h : q = p
  · subst h; simp
  · simp [Function.update_noteq h]

@[simp] theorem right_setRight (b : Board) (p q : Cell) (x : Option Cell) :
    ((b.setRight p x).cells q).right = if q = p then x else (b.cells q).right := by
  unfold setRight
  by_cases h : q = p
  · subst h; simp
  · simp [Function.update_noteq h, h]

@[simp] theorem left_vacate (b : Board) (p q : Cell) :
    ((b.vacate p).cells q).left = if q = p then none else (b.cells q).left := by
  simp [vacate]

@[simp] theorem right_vacate (b : Board) (p q : Cell) :
    ((b.vacate p).cells q).right = if q = p then none else (b.cells q).right := by
  simp [vacate]

/-- The cached pointers after a `MovePiece` that takes the simple-move branch. -/
theorem MovePiece_simple_ptrs (b b1 : Board) (previous nxt : Coord) (direction : String)
    (p1 p2 r : Cell) (h1 : toCell previous = some p1) (h2 : toCell nxt = some p2)
    (hj : b.owner p1 ≠ b.owner p2 * -1)
    (hm : b.MovePiece previous nxt direction = some (b1, r)) (q : Cell) :
    (b1.cells q).left =
        (if q = p1 then none
         else if q = p2 then
           (if CheckBounds (nxt.1 + b.owner p1, nxt.2 - 1) = true then
              toCell (nxt.1 + b.owner p1, nxt.2 - 1)
            else (b.cells p2).left)
         else (b.cells q).left) ∧
      (b1.cells q).right =
        (if q = p1 then none
         else if q = p2 then
           (if CheckBounds (nxt.1 + b.owner p1, nxt.2 + 1) = true then
              toCell (nxt.1 + b.owner p1, nxt.2 + 1)
            else (b.cells p2).right)
         else (b.cells q).right) := by
  unfold MovePiece at hm
  simp only [h1, h2, hj, if_false, Option.some.injEq, Prod.mk.injEq] at hm
  obtain ⟨hb, -⟩ := hm
  subst hb
  by_cases hq1 : q = p1
  · simp [hq1]
  · by_cases hq2 : q = p2
    · subst hq2
      simp only [left_vacate, right_vacate, hq1, if_false, owner_setOwner, ite_self,
        owner_ite_setLeft, if_true]
      constructor
      · split <;> split <;> simp
      · split <;> split <;> simp
    · simp only [left_vacate, right_vacate, hq1, hq2, if_false]
      constructor
      · split <;> split <;> simp [hq2]
      · split <;> split <;> simp [hq2]

/-- The cached pointers after a `MovePiece` that takes the jump branch. -/
theorem MovePiece_jump_ptrs (b b1 : Board) (previous nxt : Coord) (direction : String)
    (p1 p2 p3 r : Cell) (h1 : toCell previous = some p1) (h2 : toCell nxt = some p2)
    (hj : b.owner p1 = b.owner p2 * -1) (h3 : b.landing p1 nxt direction = some p3)
    (hm : b.MovePiece previous nxt direction = some (b1, r)) (q : Cell) :
    (b1.cells q).left =
        (if q = p1 then none
         else if q = p2 then none
         else if q = p3 then
           (if CheckBounds (nxt.1 + 2 * b.owner p1, nxt.2 - 2) = true then
              toCell (nxt.1 + 2 * b.owner p1, nxt.2 - 2)
            else (b.cells p3).left)
         else (b.cells q).left) ∧
      (b1.cells q).right =
        (if q = p1 then none
         else if q = p2 then none
         else if q = p3 then
           (if CheckBounds (nxt.1 + 2 * b.owner p1, nxt.2 + 2) = true then
              toCell (nxt.1 + 2 * b.owner p1, nxt.2 + 2)
            else (b.cells p3).right)
         else (b.cells q).right) := by
  unfold MovePiece at hm
  unfold landing at h3
  simp only [h1, h2, hj, if_true] at hm
  rw [hj] at h3
  simp only [h3, Option.some.injEq, Prod.mk.injEq] at hm
  obtain ⟨hb, -⟩ := hm
  subst hb
  rw [← hj]
  by_cases hq1 : q = p1
  · simp [hq1]
  · by_cases hq2 : q = p2
    · simp [hq1, hq2]
    · by_cases hq3 : q = p3
      · subst hq3
        simp only [left_vacate, right_vacate, hq1, hq2, if_false, owner_setOwner, ite_self,
          owner_ite_setLeft, if_true]
        constructor
        · split <;> split <;> simp
        · split <;> split <;> simp
      · simp only [left_vacate, right_vacate, hq1, hq2, hq3, if_false]
        constructor
        · split <;> split <;> simp [hq3]
        · split <;> split <;> simp [hq3]

/-- The two ways a call of the game loop goes on a board with owners 0, -1, 1: a simple
move onto the empty `nxt`, or a jump over the opponent on `nxt` onto the empty landing
cell. -/
theorem loopCall_cases (b b1 : Board) (p : Int) (prev nxt : Coord) (d : String) (r : Cell)
    (hv : b.ownersValid) (hc : b.loopCall p prev nxt d b1 r) :
    ∃ p1 p2, toCell prev = some p1 ∧ toCell nxt = some p2 ∧ b.owner p1 = p ∧ p1 ≠ p2 ∧
      ((b.owner p2 = 0 ∧ b.owner p1 ≠ b.owner p2 * -1 ∧ r = p2) ∨
        (b.owner p2 = -p ∧ b.owner p1 = b.owner p2 * -1 ∧ b.landing p1 nxt d = some r ∧
          b.owner r = 0 ∧ r ≠ p1 ∧ r ≠ p2 ∧ r.coord = landingCoord nxt p d)) := by
  obtain ⟨hp, hown, -, hcol, hval, hm⟩ := hc
  obtain ⟨p1, h1, ho1⟩ := (ownerAt_eq_some_iff b prev p).mp hown
  obtain ⟨t, h2, hne, hcase⟩ := isValid_true_cases b nxt p d hval
  have h1t : p1 ≠ t := by
    intro h; rw [← h] at hne; exact hne ho1
  have hd : d = "left" ∨ d = "right" := by
    rcases hcol with ⟨h, -⟩ | ⟨h, -⟩
    · exact Or.inl h
    · exact Or.inr h
  refine ⟨p1, t, h1, h2, ho1, h1t, ?_⟩
  rcases hcase with h0 | ⟨h0, j, hj, hj0⟩
  · have hjmp : b.owner p1 ≠ b.owner t * -1 := by rw [ho1, h0]; omega
    obtain ⟨b2, hm2, -, -⟩ := MovePiece_simple_branch b prev nxt d p1 t h1 h2 hjmp
    rw [hm2] at hm
    simp only [Option.some.injEq, Prod.mk.injEq] at hm
    exact Or.inl ⟨h0, hjmp, hm.2.symm⟩
  · have hopp : b.owner t = -p := by
      rcases hv t with h | h | h <;> omega
    have hjmp : b.owner p1 = b.owner t * -1 := by rw [ho1, hopp]; omega
    have hland : b.landing p1 nxt d = some j := by
      rw [landing_eq_toCell b p1 nxt d hd, ho1, hj]
    obtain ⟨b2, hm2, -, -⟩ := MovePiece_jump_branch b prev nxt d p1 t j h1 h2 hjmp hland
    rw [hm2] at hm
    simp only [Option.some.injEq, Prod.mk.injEq] at hm
    obtain ⟨-, hr⟩ := hm
    subst hr
    have hj1 : j ≠ p1 := by
      intro h; rw [h, ho1] at hj0; omega
    have hjt : j ≠ t := by
      intro h; rw [h] at hj0; exact h0 hj0
    exact Or.inr ⟨hopp, hjmp, hland, hj0, hj1, hjt, (toCell_eq_some_iff _ _).mp hj⟩

/-- A call of the game loop keeps the owners among 0, -1, 1 and the cached pointers in the
state `pointersValid`, and leaves the pointers of the vacated origin null. -/
theorem pointersValid_loopCall (b b1 : Board) (p : Int) (prev nxt : Coord) (d : String)
    (r : Cell) (hv : b.ownersValid) (hpv : b.pointersValid)
    (hc : b.loopCall p prev nxt d b1 r) :
    b1.pointersValid ∧
      ∀ p1, toCell prev = some p1 → (b1.cells p1).left = none ∧ (b1.cells p1).right = none := by
  obtain ⟨p1, p2, h1, h2, ho1, h12, hcase⟩ := loopCall_cases b b1 p prev nxt d r hv hc
  obtain ⟨hp, -, -, hcol, -, hm⟩ := hc
  have hc2 : p2.coord = nxt := (toCell_eq_some_iff _ _).mp h2
  have hb2 := (CheckBounds_iff _).mp (CheckBounds_coord p2)
  rw [hc2] at hb2
  obtain ⟨q1, q2, hq1, hq2, -, hcase2⟩ := MovePiece_cases b b1 prev nxt d r hm
  rw [h1] at hq1; rw [h2] at hq2
  injection hq1 with hq1; injection hq2 with hq2
  subst hq1; subst hq2
  rcases hcase with ⟨h0, hj, hr⟩ | ⟨hopp, hj, hland, hr0, hr1, hr2, hrc⟩
  · have hown : ∀ q, b1.owner q =
        if q = p1 then 0 else if q = p2 then b.owner p1 else b.owner q := by
      rcases hcase2 with ⟨-, -, h⟩ | ⟨hj2, -, -⟩
      · exact h
      · exact absurd hj2 hj
    have hptr := MovePiece_simple_ptrs b b1 prev nxt d p1 p2 r h1 h2 hj hm
    refine ⟨?_, ?_⟩
    · intro q
      obtain ⟨hl, hrr⟩ := hptr q
      rw [hown q, hl, hrr]
      by_cases e1 : q = p1
      · simp [e1]
      · by_cases e2 : q = p2
        · subst e2
          have hold := (hpv q).1 h0
          simp only [e1, if_false, if_true, hold.1, hold.2, ho1]
          refine ⟨fun h => by omega, ?_, ?_⟩
          · intro h
            split at h
            · rename_i hcb; rw [hc2]; exact hcb
            · exact absurd rfl h
          · intro h
            split at h
            · rename_i hcb; rw [hc2]; exact hcb
            · exact absurd rfl h
        · simp only [e1, e2, if_false]
          exact hpv q
    · intro q hq
      rw [h1] at hq; injection hq with hq; subst hq
      obtain ⟨hl, hrr⟩ := hptr p1
      simp [hl, hrr]
  · have hown : ∀ q, b1.owner q =
        if q = p1 then 0 else if q = p2 then 0 else if q = r then b.owner p1
        else b.owner q := by
      rcases hcase2 with ⟨hj2, -, -⟩ | ⟨-, -, h⟩
      · exact absurd hj hj2
      · exact h
    have hptr := MovePiece_jump_ptrs b b1 prev nxt d p1 p2 r r h1 h2 hj hland hm
    refine ⟨?_, ?_⟩
    · intro q
      obtain ⟨hl, hrr⟩ := hptr q
      rw [hown q, hl, hrr]
      by_cases e1 : q = p1
      · simp [e1]
      · by_cases e2 : q = p2
        · simp [e1, e2]
        · by_cases e3 : q = r
          · subst e3
            have hold := (hpv q).1 hr0
            simp only [e1, e2, if_false, if_true, hold.1, hold.2, ho1]
            have hlr : ¬ ("right" : String) = "left" := by decide
            refine ⟨fun h => by omega, ?_, ?_⟩
            · intro h
              split at h
              · rename_i hcb
                have hcb2 := (CheckBounds_iff _).mp hcb
                simp only at hcb2
                rw [CheckBounds_iff, hrc]
                unfold landingCoord
                rcases hcol with ⟨hd, -⟩ | ⟨hd, -⟩
                · simp only [hd, if_true]; omega
                · simp only [hd, hlr, if_false]; omega
              · exact absurd rfl h
            · intro h
              split at h
              · rename_i hcb
                have hcb2 := (CheckBounds_iff _).mp hcb
                simp only at hcb2
                rw [CheckBounds_iff, hrc]
                unfold landingCoord
                rcases hcol with ⟨hd, -⟩ | ⟨hd, -⟩
                · simp only [hd, if_true]; omega
                · simp only [hd, hlr, if_false]; omega
              · exact absurd rfl h
          · simp only [e1, e2, e3, if_false]
            exact hpv q
    · intro q hq
      rw [h1] at hq; injection hq with hq; subst hq
      obtain ⟨hl, hrr⟩ := hptr p1
      simp [hl, hrr]

set_option maxRecDepth 100000 in
theorem pointersValid_construct : construct.pointersValid := by decide

theorem reachable_pointersValid (b : Board) (hr : Reachable b) : b.pointersValid := by
  have h : b.ownersValid ∧ b.pointersValid :=
    reachable_invariant (fun b => b.ownersValid ∧ b.pointersValid)
      ⟨ownersValid_construct, pointersValid_construct⟩ (fun _ _ hq => hq)
      (fun b b1 p prev nxt d r hq hcall =>
        ⟨ownersValid_MovePiece b b1 prev nxt d r hq.1 hcall.2.2.2.2.2,
          (pointersValid_loopCall b b1 p prev nxt d r hq.1 hq.2 hcall).1⟩)
      b hr
  exact h.2

/-! ## The game loop never reads outside the grid -/

/-- `isValid` returns whenever its target is inside the grid. -/
theorem isValid_isSome (b : Board) (t : Coord) (p : Int) (d : String)
    (h : CheckBounds t = true) : ∃ v, b.isValid t p d = some v := by
  obtain ⟨q, hq, -⟩ := toCell_isSome_of_CheckBounds t h
  unfold isValid
  rw [GetPiece_eq_toCell, hq]
  simp only
  split
  · exact ⟨_, rfl⟩
  · split
    · exact ⟨_, rfl⟩
    · split
      · split
        · split <;> exact ⟨_, rfl⟩
        · exact ⟨_, rfl⟩
      · split
        · split <;> exact ⟨_, rfl⟩
        · exact ⟨_, rfl⟩

theorem guarded_isSome (b : Board) (ptr : Option Cell) (t : Coord) (p : Int) (d : String)
    (h : ptr ≠ none → CheckBounds t = true) : ∃ v, b.guarded ptr t p d = some v := by
  cases ptr with
  | none => exact ⟨false, rfl⟩
  | some q => exact isValid_isSome b t p d (h (by simp))

/-- A validated forward call returns. -/
theorem MovePiece_of_valid (b : Board) (p : Int) (prev nxt : Coord) (d : String)
    (hv : b.ownersValid) (hp : p = -1 ∨ p = 1) (hown : b.ownerAt prev = some p)
    (hd : d = "left" ∨ d = "right") (hval : b.isValid nxt p d = some true) :
    ∃ b1 r, b.MovePiece prev nxt d = some (b1, r) := by
  obtain ⟨p1, h1, ho1⟩ := (ownerAt_eq_some_iff b prev p).mp hown
  obtain ⟨t, h2, hne, hcase⟩ := isValid_true_cases b nxt p d hval
  rcases hcase with h0 | ⟨h0, j, hj, -⟩
  · have hjmp : b.owner p1 ≠ b.owner t * -1 := by rw [ho1, h0]; omega
    obtain ⟨b2, hm2, -, -⟩ := MovePiece_simple_branch b prev nxt d p1 t h1 h2 hjmp
    exact ⟨b2, t, hm2⟩
  · have hopp : b.owner t = -p := by
      rcases hv t with h | h | h <;> omega
    have hjmp : b.owner p1 = b.owner t * -1 := by rw [ho1, hopp]; omega
    have hland : b.landing p1 nxt d = some j := by
      rw [landing_eq_toCell b p1 nxt d hd, ho1, hj]
    obtain ⟨b2, hm2, -, -⟩ := MovePiece_jump_branch b prev nxt d p1 t j h1 h2 hjmp hland
    exact ⟨b2, j, hm2⟩

/-- The computer's loop returns on a board in a valid state when the right-hand pointer of
the piece the player moved is null. -/
theorem computerLoop_total (b : Board) (sel : Cell) (hv : b.ownersValid)
    (hpos : b.positionsValid) (hpv : b.pointersValid) (hsel : (b.cells sel).right = none) :
    ∀ n, n < b.computerPieces.length ∨ n = 0 → ∃ res, b.computerLoop sel n = some res
  | 0, _ => ⟨(b, []), rfl⟩
  | n + 1, hn => by
    have hlt : n + 1 < b.computerPieces.length := by
      rcases hn with h | h
      · exact h
      · omega
    have ih := computerLoop_total b sel hv hpos hpv hsel n (Or.inl (by omega))
    rw [computerLoop]
    have hget : b.computerPieces.get? (n + 1) = some (b.computerPieces.get ⟨n + 1, hlt⟩) :=
      List.get?_eq_get hlt
    rw [hget]
    simp only
    generalize b.computerPieces.get ⟨n + 1, hlt⟩ = comp
    by_cases ho : b.owner comp ≠ 1
    · rw [if_pos ho]; exact ih
    · rw [if_neg ho]
      have ho1 : b.owner comp = 1 := by
        by_contra hne; exact ho hne
      have hposc : (b.cells comp).position = comp.coord := hpos comp
      obtain ⟨m0, hm0⟩ := guarded_isSome b (b.cells comp).left
        ((b.cells comp).position.1 + 1, (b.cells comp).position.2 - 1) (b.owner comp) "left"
        (by
          intro hne
          have := (hpv comp).2.1 hne
          rw [ho1] at this
          rw [hposc]; exact this)
      have hm1 : b.guarded (b.cells sel).right
          ((b.cells comp).position.1 + 1, (b.cells comp).position.2 + 1) (b.owner comp)
          "right" = some false := by
        rw [hsel]; rfl
      rw [hm0, hm1]
      simp only
      by_cases ht : m0 = true
      · rw [if_pos ht]
        rw [ht, ho1] at hm0
        obtain ⟨-, hval⟩ := guarded_true _ _ _ _ _ hm0
        have hown : b.ownerAt (b.cells comp).position = some 1 := by
          rw [hposc, ownerAt_coord, ho1]
        obtain ⟨b1, r, hm⟩ := MovePiece_of_valid b 1 (b.cells comp).position
          ((b.cells comp).position.1 + 1, (b.cells comp).position.2 - 1) "left" hv
          (Or.inr rfl) hown (Or.inl rfl) hval
        rw [hm]
        exact ⟨_, rfl⟩
      · rw [if_neg ht]; exact ih

theorem computerTurn_total (b : Board) (sel : Cell) (hv : b.ownersValid)
    (hpos : b.positionsValid) (hpv : b.pointersValid) (hsel : (b.cells sel).right = none) :
    ∃ res, b.computerTurn sel = some res := by
  unfold computerTurn
  apply computerLoop_total b sel hv hpos hpv hsel
  omega

/-- An iteration of the game loop on a board in a valid state returns: no access in it
falls outside the grid and no null pointer is dereferenced. -/
theorem loopBody_total (b : Board) (hv : b.ownersValid) (hpos : b.positionsValid)
    (hpv : b.pointersValid) (input direction : String) :
    ∃ res, b.loopBody input direction = some res := by
  unfold loopBody
  simp only
  by_cases hc : b.CheckOwner (CheckInput input) (-1) = true
  · rw [if_pos hc]
    have hown := CheckOwner_true b _ _ hc
    obtain ⟨sel, hsel, hosel⟩ := (ownerAt_eq_some_iff b _ _).mp hown
    have hcs : sel.coord = CheckInput input := (toCell_eq_some_iff _ _).mp hsel
    have hturn : ∀ (d : String) (nxt : Coord) (b1 : Board) (r : Cell),
        (d = "left" ∧ nxt = ((CheckInput input).1 - 1, (CheckInput input).2 - 1) ∨
          d = "right" ∧ nxt = ((CheckInput input).1 - 1, (CheckInput input).2 + 1)) →
        b.isValid nxt (-1) d = some true →
        b.MovePiece (CheckInput input) nxt d = some (b1, r) →
        ∃ res, b1.computerTurn sel = some res := by
      intro d nxt b1 r hd hval hm
      have hcall : b.loopCall (-1) (CheckInput input) nxt d b1 r := by
        refine ⟨Or.inl rfl, hown, ?_, ?_, hval, hm⟩
        · rcases hd with ⟨-, h⟩ | ⟨-, h⟩ <;> rw [h] <;> simp only <;> omega
        · rcases hd with ⟨hd, h⟩ | ⟨hd, h⟩
          · exact Or.inl ⟨hd, by rw [h]⟩
          · exact Or.inr ⟨hd, by rw [h]⟩
      obtain ⟨hpv1, hvac⟩ := pointersValid_loopCall b b1 _ _ _ _ r hv hpv hcall
      exact computerTurn_total b1 sel (ownersValid_MovePiece b b1 _ _ _ _ hv hm)
        (positionsValid_MovePiece b b1 _ _ _ _ hpos hm) hpv1 (hvac sel hsel).2
    have hp : ∃ res, b.playerMove (CheckInput input) direction = some res ∧
        ∀ b1 s mv, res = some (b1, s, mv) → ∃ res2, b1.computerTurn s = some res2 := by
      unfold playerMove
      rw [GetPiece_eq_toCell, hsel]
      simp only
      obtain ⟨m0, hm0⟩ := guarded_isSome b (b.cells sel).left
        ((CheckInput input).1 - 1, (CheckInput input).2 - 1) (b.owner sel) "left"
        (by
          intro hne
          have h := (hpv sel).2.1 hne
          rw [hosel, hcs] at h
          rw [CheckBounds_iff] at h ⊢
          simp only at h ⊢
          omega)
      obtain ⟨m1, hm1⟩ := guarded_isSome b (b.cells sel).right
        ((CheckInput input).1 - 1, (CheckInput input).2 + 1) (b.owner sel) "right"
        (by
          intro hne
          have h := (hpv sel).2.2 hne
          rw [hosel, hcs] at h
          rw [CheckBounds_iff] at h ⊢
          simp only at h ⊢
          omega)
      rw [hm0, hm1]
      simp only
      by_cases hl : directionKey direction = 'l' ∧ m0 = true
      · rw [if_pos hl]
        rw [hl.2, hosel] at hm0
        obtain ⟨-, hval⟩ := guarded_true _ _ _ _ _ hm0
        obtain ⟨b1, r, hm⟩ := MovePiece_of_valid b (-1) (CheckInput input)
          ((CheckInput input).1 - 1, (CheckInput input).2 - 1) "left" hv (Or.inl rfl) hown
          (Or.inl rfl) hval
        rw [hm]
        refine ⟨_, rfl, ?_⟩
        intro b2 s mv he
        simp only [Option.some.injEq, Prod.mk.injEq] at he
        obtain ⟨hb, hs, -⟩ := he
        subst hb; subst hs
        exact hturn "left" _ b1 r (Or.inl ⟨rfl, rfl⟩) hval hm
      · rw [if_neg hl]
        by_cases hr : directionKey direction = 'r' ∧ m1 = true
        · rw [if_pos hr]
          rw [hr.2, hosel] at hm1
          obtain ⟨-, hval⟩ := guarded_true _ _ _ _ _ hm1
          obtain ⟨b1, r, hm⟩ := MovePiece_of_valid b (-1) (CheckInput input)
            ((CheckInput input).1 - 1, (CheckInput input).2 + 1) "right" hv (Or.inl rfl) hown
            (Or.inr rfl) hval
          rw [hm]
          refine ⟨_, rfl, ?_⟩
          intro b2 s mv he
          simp only [Option.some.injEq, Prod.mk.injEq] at he
          obtain ⟨hb, hs, -⟩ := he
          subst hb; subst hs
          exact hturn "right" _ b1 r (Or.inr ⟨rfl, rfl⟩) hval hm
        · rw [if_neg hr]
          refine ⟨none, rfl, ?_⟩
          intro b2 s mv he
          cases he
    obtain ⟨res, hres, hnext⟩ := hp
    rw [hres]
    cases res with
    | none => exact ⟨_, rfl⟩
    | some x =>
      obtain ⟨b1, s, mv⟩ := x
      obtain ⟨res2, hres2⟩ := hnext b1 s mv rfl
      simp only
      rw [hres2]
      exact ⟨_, rfl⟩
  · rw [if_neg hc]
    exact ⟨_, rfl⟩

/-- C18: guarded validation never dereferences a missing cell.  On every board reachable
from the constructed board through the game loop, every empty cell has null `left` and
`right`, a non-null `left` (`right`) of a cell at `(r, c)` with owner `p` goes with
`(r + p, c - 1)` (`(r + p, c + 1)`) being inside the grid, and every iteration of the loop
returns for every typed input and direction: each `isValid` call behind a pointer guard
gets coordinates inside the grid and no lookup it dereferences is null. -/
theorem reachable_guards_safe (b : Board) (hr : Reachable b) :
    b.pointersValid ∧
      (∀ c : Cell, (b.cells c).left ≠ none →
        ∃ t, b.GetPiece (c.coord.1 + b.owner c, c.coord.2 - 1) = some t) ∧
      (∀ c : Cell, (b.cells c).right ≠ none →
        ∃ t, b.GetPiece (c.coord.1 + b.owner c, c.coord.2 + 1) = some t) ∧
      ∀ input direction : String, ∃ res, b.loopBody input direction = some res := by
  have hpv := reachable_pointersValid b hr
  refine ⟨hpv, ?_, ?_, ?_⟩
  · intro c hc
    obtain ⟨t, ht, -⟩ := toCell_isSome_of_CheckBounds _ ((hpv c).2.1 hc)
    exact ⟨t, by rw [GetPiece_eq_toCell, ht]⟩
  · intro c hc
    obtain ⟨t, ht, -⟩ := toCell_isSome_of_CheckBounds _ ((hpv c).2.2 hc)
    exact ⟨t, by rw [GetPiece_eq_toCell, ht]⟩
  · intro input direction
    exact loopBody_total b (reachable_ownersValid b hr) (reachable_positionsValid b hr) hpv
      input direction

set_option maxRecDepth 100000 in
/-- Witness for C18: the constructed board. -/
theorem reachable_guards_safe_witness :
    construct.pointersValid ∧
      (∀ c : Cell, (construct.cells c).left ≠ none →
        ∃ t, construct.GetPiece (c.coord.1 + construct.owner c, c.coord.2 - 1) = some t) ∧
      (∀ c : Cell, (construct.cells c).right ≠ none →
        ∃ t, construct.GetPiece (c.coord.1 + construct.owner c, c.coord.2 + 1) = some t) ∧
      ∀ input direction : String, ∃ res, construct.loopBody input direction = some res :=
  reachable_guards_safe construct Reachable.start

/-! ## The computer's piece index -/

/-- The owner of a cell after `MovePiece` from a cell of owner `p`: unchanged, or 0, or the
cell is the returned one and holds `p`. -/
theorem MovePiece_owner_new (b b1 : Board) (previous nxt : Coord) (direction : String)
    (r : Cell) (p : Int) (hown : b.ownerAt previous = some p)
    (hm : b.MovePiece previous nxt direction = some (b1, r)) (q : Cell) :
    b1.owner q = b.owner q ∨ b1.owner q = 0 ∨ (q = r ∧ b1.owner q = p) := by
  obtain ⟨p1, p2, h1, -, -, hcase⟩ := MovePiece_cases b b1 previous nxt direction r hm
  have ho1 : b.owner p1 = p := by
    rw [ownerAt_eq, h1] at hown; simpa using hown
  rcases hcase with ⟨-, hr, ho⟩ | ⟨-, -, ho⟩
  · rw [ho q]
    by_cases e1 : q = p1
    · simp [e1]
    · by_cases e2 : q = p2
      · subst e2
        right; right
        exact ⟨hr.symm, by simp [e1, ho1]⟩
      · simp [e1, e2]
  · rw [ho q]
    by_cases e1 : q = p1
    · simp [e1]
    · by_cases e2 : q = p2
      · simp [e1, e2]
      · by_cases e3 : q = r
        · subst e3
          right; right
          exact ⟨rfl, by simp [e1, e2, ho1]⟩
        · simp [e1, e2, e3]

theorem mem_set_of_ne (l : List Cell) (i : Nat) (c comp x : Cell) (hc : c ∈ l)
    (hi : l.get? i = some comp) (hne : c ≠ comp) : c ∈ l.set i x := by
  obtain ⟨j, hj⟩ := List.mem_iff_getElem?.mp hc
  rw [List.get?_eq_getElem?] at hi
  have hji : i ≠ j := by
    intro h; rw [h, hj] at hi; injection hi with hi; exact hne hi
  apply List.mem_iff_getElem?.mpr
  exact ⟨j, by rw [List.getElem?_set_ne hji, hj]⟩

theorem mem_set_self_of_get? (l : List Cell) (i : Nat) (comp x : Cell)
    (hi : l.get? i = some comp) : x ∈ l.set i x := by
  obtain ⟨h, -⟩ := List.get?_eq_some.mp hi
  exact List.mem_set l i h x

set_option maxRecDepth 1000000 in
theorem run_staleInputs : construct.run staleInputs = some staleBoard := by
  have hs : (construct.run staleInputs).isSome = true := by decide
  unfold staleBoard
  cases h : construct.run staleInputs with
  | none => rw [h] at hs; cases hs
  | some b => rfl

theorem reachable_staleBoard : Reachable staleBoard :=
  run_reachable staleInputs construct staleBoard Reachable.start run_staleInputs

set_option maxRecDepth 1000000 in
/-- C11 (counterexample): the index keeps entries of captured pieces.  The board
`staleBoard` is reached from the constructed board by three typed rounds, in the last of
which the player's piece on (5,6) jumps over the computer piece on (4,5); entry 11 of
`computerPieces` still refers to (4,5), which is now empty. -/
theorem index_entry_stale_counterexample :
    Reachable staleBoard ∧ staleBoard.computerPieces.get? 11 = some (4, 5) ∧
      staleBoard.owner (4, 5) = 0 ∧
      ¬ (∀ c ∈ staleBoard.computerPieces, staleBoard.owner c = 1) := by
  refine ⟨reachable_staleBoard, by decide, by decide, ?_⟩
  intro h
  have h1 : ((4, 5) : Cell) ∈ staleBoard.computerPieces :=
    List.get?_mem (show staleBoard.computerPieces.get? 11 = some (4, 5) by decide)
  have h2 := h (4, 5) h1
  have h3 : staleBoard.owner (4, 5) = 0 := by decide
  rw [h3] at h2
  exact absurd h2 (by decide)

set_option maxRecDepth 100000 in
/-- C11 (as amended): on every reachable board the index has its 12 entries, and every cell
owned by player 2 (owner 1), the cell (4,3) of the jump-test piece left aside, is in the
index.  Nothing is said of the owner of the cell an entry refers to: captured pieces stay
in the index and the computer's loop checks the owner before it uses an entry. -/
theorem reachable_index_complete (b : Board) (hr : Reachable b) :
    b.computerPieces.length = 12 ∧
      ∀ c : Cell, c ≠ (4, 3) → b.owner c = 1 → c ∈ b.computerPieces := by
  induction hr with
  | start => exact ⟨by decide, by decide⟩
  | step b b2 input direction mvs hrb h ih =>
    rcases loopBody_calls b b2 input direction mvs (reachable_positionsValid b hrb) h with
      ⟨hb, -⟩ | ⟨b1, sel, nxt, d, r, -, hcall, hrest⟩
    · rw [hb]; exact ih
    · obtain ⟨-, hown, -, -, -, hm⟩ := hcall
      obtain ⟨_, _, -, -, hcp1, -⟩ := MovePiece_cases b b1 _ nxt d r hm
      have ih1 : b1.computerPieces.length = 12 ∧
          ∀ c : Cell, c ≠ (4, 3) → b1.owner c = 1 → c ∈ b1.computerPieces := by
        refine ⟨by rw [hcp1]; exact ih.1, ?_⟩
        intro c hc43 hc
        rw [hcp1]
        rcases MovePiece_owner_new b b1 _ nxt d r (-1) hown hm c with e | e | ⟨-, e⟩
        · exact ih.2 c hc43 (by rw [← e]; exact hc)
        · rw [e] at hc; exact absurd hc (by decide)
        · rw [e] at hc; exact absurd hc (by decide)
      rcases hrest with ⟨hb, -⟩ | ⟨i, comp, b3, r3, -, hget, hoc, hcall2, hb2, -⟩
      · rw [hb]; exact ih1
      · obtain ⟨-, hown2, -, -, -, hm2⟩ := hcall2
        obtain ⟨q1, _, hq1, -, hcp3, hcase3⟩ := MovePiece_cases b1 b3 _ _ _ r3 hm2
        have hq1c : q1 = comp := by
          rw [toCell_coord] at hq1; injection hq1 with hq1; exact hq1.symm
        have hcomp0 : b3.owner comp = 0 := by
          rcases hcase3 with ⟨-, -, ho⟩ | ⟨-, -, ho⟩ <;> rw [ho comp] <;> simp [hq1c]
        rw [hb2]
        refine ⟨by simp only [List.length_set]; rw [hcp3]; exact ih1.1, ?_⟩
        intro c hc43 hc
        have hc3 : b3.owner c = 1 := hc
        show c ∈ b3.computerPieces.set i r3
        rw [hcp3]
        rcases MovePiece_owner_new b1 b3 _ _ _ r3 1 hown2 hm2 c with e | e | ⟨e, -⟩
        · have hne : c ≠ comp := by
            intro hcc; rw [hcc, hcomp0] at hc3; exact absurd hc3 (by decide)
          exact mem_set_of_ne _ i c comp r3 (ih1.2 c hc43 (by rw [← e]; exact hc3)) hget hne
        · rw [e] at hc3; exact absurd hc3 (by decide)
        · rw [e]; exact mem_set_self_of_get? _ i comp r3 hget

set_option maxRecDepth 100000 in
/-- Witness for C11: the constructed board. -/
theorem reachable_index_complete_witness :
    construct.computerPieces.length = 12 ∧
      ∀ c : Cell, c ≠ (4, 3) → construct.owner c = 1 → c ∈ construct.computerPieces :=
  reachable_index_complete construct Reachable.start

/-! ## Pointer reset after a move, and the computer turn -/

/-- The simple-move half of the pointer reset: after a call of the game loop onto an empty
`nxt`, on a board in a valid state, the cell the piece ends on is `nxt` and its `left` and
`right` refer to the two forward-diagonal cells of `nxt` (null when outside the grid). -/
theorem simple_move_resets_pointers (b b1 : Board) (p : Int) (prev nxt : Coord) (d : String)
    (r : Cell) (hv : b.ownersValid) (hpv : b.pointersValid)
    (hc : b.loopCall p prev nxt d b1 r) (hempty : b.ownerAt nxt = some 0) :
    r.coord = nxt ∧ (b1.cells r).left = toCell (nxt.1 + p, nxt.2 - 1) ∧
      (b1.cells r).right = toCell (nxt.1 + p, nxt.2 + 1) := by
  obtain ⟨p1, p2, h1, h2, ho1, h12, hcase⟩ := loopCall_cases b b1 p prev nxt d r hv hc
  obtain ⟨hp, -, -, -, -, hm⟩ := hc
  have ho2 : b.owner p2 = 0 := by
    rw [ownerAt_eq, h2] at hempty; simpa using hempty
  have hj : b.owner p1 ≠ b.owner p2 * -1 := by rw [ho1, ho2]; omega
  have hr : r = p2 := by
    rcases hcase with ⟨-, -, h⟩ | ⟨-, hj2, -⟩
    · exact h
    · exact absurd hj2 hj
  subst hr
  obtain ⟨hl, hrr⟩ := MovePiece_simple_ptrs b b1 prev nxt d p1 r r h1 h2 hj hm r
  have hold := (hpv r).1 ho2
  have h21 : r ≠ p1 := fun h => h12 h.symm
  refine ⟨(toCell_eq_some_iff _ _).mp h2, ?_, ?_⟩
  · rw [hl, ho1]
    simp only [h21, if_false, if_true, hold.1]
    split
    · rfl
    · rename_i hcb
      rw [toCell_eq_none_of_not_CheckBounds _ hcb]
  · rw [hrr, ho1]
    simp only [h21, if_false, if_true, hold.2]
    split
    · rfl
    · rename_i hcb
      rw [toCell_eq_none_of_not_CheckBounds _ hcb]

set_option maxRecDepth 100000 in
/-- C15 (the code departs from the claim): after a jump one of the two cached pointers is
set two columns off.  On the constructed board the jump of (5,2) over (4,3) to the right
lands on (3,4), whose forward-left cell is (2,3), but `left` is set to (2,1); the jump of
(5,4) over (4,3) to the left lands on (3,2), whose forward-right cell is (2,3), but `right`
is set to (2,5). -/
theorem jump_resets_wrong_pointer :
    (construct.MovePiece (5, 2) (4, 3) "right").map
        (fun x => (x.2, (x.1.cells x.2).left, (x.1.cells x.2).right))
        = some ((3, 4), some (2, 1), some (2, 5)) ∧
      toCell ((3 : Int) + -1, (4 : Int) - 1) = some (2, 3) ∧
      (construct.MovePiece (5, 4) (4, 3) "left").map
        (fun x => (x.2, (x.1.cells x.2).left, (x.1.cells x.2).right))
        = some ((3, 2), some (2, 1), some (2, 5)) ∧
      toCell ((3 : Int) + -1, (2 : Int) + 1) = some (2, 3) := by
  decide

set_option maxRecDepth 1000000 in
theorem run_stuckInputs : construct.run stuckInputs = some stuckBoard := by
  have hs : (construct.run stuckInputs).isSome = true := by decide
  unfold stuckBoard
  cases h : construct.run stuckInputs with
  | none => rw [h] at hs; cases hs
  | some b => rfl

theorem reachable_stuckBoard : Reachable stuckBoard :=
  run_reachable stuckInputs construct stuckBoard Reachable.start run_stuckInputs

set_option maxRecDepth 1000000 in
/-- C16 (the code departs from the claim): the computer does not move although one of its
pieces has a valid move.  The board `stuckBoard` is reached from the constructed board by
six typed rounds.  There the player selects (6,3) ("47") and types "l"; the iteration
executes this one move only.  On the board after it, entry 10 of the index is the cell
(2,5), it is owned by player 2, its cached right pointer is non-null and `isValid` accepts
its move to the empty (3,6); the computer's loop tests only moves to the left. -/
theorem computer_skips_valid_move :
    Reachable stuckBoard ∧
      (stuckBoard.loopBody "47" "l").map Prod.snd =
        some [{ previous := (6, 3), next := (5, 2), direction := "left", result := (5, 2) }] ∧
      (stuckBoard.MovePiece (6, 3) (5, 2) "left").map
          (fun x => (x.1.computerPieces.get? 10, x.1.owner (2, 5),
            ((x.1.cells (2, 5)).right).isSome, x.1.isValid (3, 6) 1 "right",
            x.1.ownerAt (3, 6)))
        = some (some (2, 5), 1, true, some true, some 0) :=
  ⟨reachable_stuckBoard, by decide, by decide⟩

/-! ## The loop has no terminal state -/

/-- When player 1 has no legal action, an iteration of the loop on a reachable board
executes no move and returns the board it started with. -/
theorem loopBody_noAction (b : Board) (hr : Reachable b) (hno : b.noAction)
    (input direction : String) : b.loopBody input direction = some (b, []) := by
  obtain ⟨res, hres⟩ := loopBody_total b (reachable_ownersValid b hr)
    (reachable_positionsValid b hr) (reachable_pointersValid b hr) input direction
  obtain ⟨b2, mvs⟩ := res
  rcases loopBody_calls b b2 input direction mvs (reachable_positionsValid b hr) hres with
    ⟨hb, hm⟩ | ⟨b1, sel, nxt, d, r, hsel, hcall, -⟩
  · rw [hres, hb, hm]
  · exfalso
    obtain ⟨-, hown, hrow, hcol, hval, -⟩ := hcall
    have hosel : b.owner sel = -1 := by
      rw [ownerAt_eq, hsel] at hown; simpa using hown
    have hcs : sel.coord = CheckInput input := (toCell_eq_some_iff _ _).mp hsel
    obtain ⟨hl, hrt⟩ := hno sel hosel
    rw [hcs] at hl hrt
    rcases hcol with ⟨hd, hc⟩ | ⟨hd, hc⟩
    · have hn : nxt = ((CheckInput input).1 - 1, (CheckInput input).2 - 1) := by
        apply Prod.ext
        · simp only; omega
        · simp only; omega
      rw [hn, hd] at hval
      exact hl hval
    · have hn : nxt = ((CheckInput input).1 - 1, (CheckInput input).2 + 1) := by
        apply Prod.ext
        · simp only; omega
        · simp only; omega
      rw [hn, hd] at hval
      exact hrt hval

/-- On a reachable board the loop is left only by the input "q": every typed round before
it is executed. -/
theorem reachable_iterations : ∀ (inputs : List (String × String)) (b : Board),
    Reachable b → (∀ x ∈ inputs, x.1 ≠ "q") → b.iterations inputs = some inputs.length
  | [], _, _, _ => rfl
  | (input, direction) :: rest, b, hr, hq => by
    obtain ⟨res, hres⟩ := loopBody_total b (reachable_ownersValid b hr)
      (reachable_positionsValid b hr) (reachable_pointersValid b hr) input direction
    obtain ⟨b1, mvs⟩ := res
    have hr1 : Reachable b1 := Reachable.step b b1 input direction mvs hr hres
    have hne : input ≠ "q" := hq (input, direction) (List.mem_cons_self _ _)
    have ih := reachable_iterations rest b1 hr1
      (fun x hx => hq x (List.mem_cons_of_mem _ hx))
    simp only [iterations, hres, hne, if_false, ih, Option.map_some', List.length_cons]

set_option maxRecDepth 1000000 in
theorem run_termInputs : construct.run termInputs = some termBoard := by
  have hs : (construct.run termInputs).isSome = true := by decide
  unfold termBoard
  cases h : construct.run termInputs with
  | none => rw [h] at hs; cases hs
  | some b => rfl

theorem reachable_termBoard : Reachable termBoard :=
  run_reachable termInputs construct termBoard Reachable.start run_termInputs

set_option maxRecDepth 1000000 in
theorem noAction_termBoard : termBoard.noAction := by decide

set_option maxRecDepth 1000000 in
/-- C14 (counterexample): no terminal state is detected.  The board `termBoard` is reached
from the constructed board by sixteen typed rounds; player 1 still has 12 pieces there but
`isValid` accepts no move of any of them.  The loop nevertheless executes the next three
typed rounds: it goes on asking player 1 for a move. -/
theorem loop_continues_counterexample :
    Reachable termBoard ∧ termBoard.noAction ∧ termBoard.countOwner (-1) = 12 ∧
      termBoard.iterations [("38", "l"), ("27", "r"), ("11", "l")] = some 3 :=
  ⟨reachable_termBoard, noAction_termBoard, by decide, by decide⟩

/-- C14 (as amended): the game has no terminal-state detection.  On a reachable board where
player 1 has no piece or no legal action, every typed round other than "q" is executed (the
loop goes on asking for a move), no move is made and the board stays as it is; the loop is
left only by the input "q". -/
theorem loop_continues_without_action (b : Board) (hr : Reachable b) (hno : b.noAction)
    (inputs : List (String × String)) (hq : ∀ x ∈ inputs, x.1 ≠ "q") :
    b.run inputs = some b ∧ b.iterations inputs = some inputs.length := by
  refine ⟨?_, reachable_iterations inputs b hr hq⟩
  induction inputs with
  | nil => rfl
  | cons x rest ih =>
    obtain ⟨input, direction⟩ := x
    have hne : input ≠ "q" := hq (input, direction) (List.mem_cons_self _ _)
    have hres := loopBody_noAction b hr hno input direction
    simp only [run, hres, hne, if_false]
    exact ih (fun x hx => hq x (List.mem_cons_of_mem _ hx))

/-- Witness for C14: on `termBoard` the rounds "38 l" and "11 r" are both executed and
leave the board as it is. -/
theorem loop_continues_without_action_witness :
    termBoard.run [("38", "l"), ("11", "r")] = some termBoard ∧
      termBoard.iterations [("38", "l"), ("11", "r")]
        = some [(("38", "l") : String × String), ("11", "r")].length :=
  loop_continues_without_action termBoard reachable_termBoard noAction_termBoard
    [("38", "l"), ("11", "r")] (by decide)

end Board

end SimpleCheckers
